import Mathlib

/-!
# Build scripts of the contracts repository: a shallow embedding

The development embeds the functions of `src/flat-all.js` (`getSolidityFiles`,
`cleanContent`, `deduplicateImports`, `mergeContractsFromFiles` and the two
job file lists), the receipt backfiller of `src/fix-forge-broadcast.js` and
the coverage summary of `src/lcov-parse.js` as total, executable Lean
functions, and proves properties of them.  All definitions come first, the
properties follow.

# The flattener, `src/flat-all.js`

Line numbers in this part are those of `src/flat-all.js`.

A JavaScript string is modelled as a list of characters.  None of the regular
expressions of the script carries the `u` flag, so JavaScript matches them on
UTF-16 code units; every character class the script uses treats the two halves
of a surrogate pair like any other non-special character, and wherever one
such character can be matched a run of them can, so matching on code points
finds the same matches.  The file system is modelled by the listing of a
directory tree; the texts of the files are passed in directly.
-/

namespace FlatAll

/-- A JavaScript string. -/
abbrev Str := List Char

/-! ## Character classes -/

/-- The double quote character. -/
def dquote : Char := Char.ofNat 34

/-- The single quote character. -/
def squote : Char := Char.ofNat 39

/-- The line terminators of ECMAScript: LF, CR, LS and PS.  They are what `.`
refuses and what `^` and `$` look at under the `m` flag. -/
def isLineTerminator (c : Char) : Bool :=
  c.toNat == 0x0A || c.toNat == 0x0D || c.toNat == 0x2028 || c.toNat == 0x2029

/-- The class `\s` of ECMAScript, which is also the set of characters that
`String.prototype.trim` strips: white space and line terminators. -/
def isSpace (c : Char) : Bool :=
  c.toNat == 0x09 || c.toNat == 0x0A || c.toNat == 0x0B || c.toNat == 0x0C ||
  c.toNat == 0x0D || c.toNat == 0x20 || c.toNat == 0xA0 || c.toNat == 0x1680 ||
  (0x2000 ≤ c.toNat && c.toNat ≤ 0x200A) ||
  c.toNat == 0x2028 || c.toNat == 0x2029 || c.toNat == 0x202F ||
  c.toNat == 0x205F || c.toNat == 0x3000 || c.toNat == 0xFEFF

/-! ## String primitives -/

/-- The method `s.startsWith(p)`. -/
def startsWith : Str → Str → Bool
  | [], _ => true
  | _ :: _, [] => false
  | p :: ps, c :: cs => p == c && startsWith ps cs

/-- The method `s.trimStart()`. -/
def trimStart (s : Str) : Str := s.dropWhile isSpace

/-- The method `s.trimEnd()`. -/
def trimEnd (s : Str) : Str := (s.reverse.dropWhile isSpace).reverse

/-- The method `s.trim()`. -/
def trim (s : Str) : Str := trimEnd (trimStart s)

/-- The method `s.split(sep)` for a one-character separator: the pieces between
the separators, the empty string giving one empty piece. -/
def splitOn (sep : Char) : Str → List Str
  | [] => [[]]
  | c :: cs =>
    if c = sep then [] :: splitOn sep cs
    else
      match splitOn sep cs with
      | [] => [[c]]
      | l :: ls => (c :: l) :: ls

/-- The method `pieces.join(sep)` for a one-character separator. -/
def joinWith (sep : Char) : List Str → Str
  | [] => []
  | [l] => l
  | l :: l2 :: ls => l ++ sep :: joinWith sep (l2 :: ls)

/-- The call `content.split("\n")`. -/
def splitLines (content : Str) : List Str := splitOn '\n' content

/-- The call `result.join("\n")`. -/
def joinLines (lines : List Str) : Str := joinWith '\n' lines

/-! ## Regular-expression building blocks

Each matcher takes the text at the current position and returns the text that
remains after the match, or `none` when there is no match at this position. -/

/-- A literal: the text after the literal `p`. -/
def lit : Str → Str → Option Str
  | [], s => some s
  | _ :: _, [] => none
  | p :: ps, c :: cs => if p = c then lit ps cs else none

/-- A greedy `[class]+` whose follower is outside the class, so that giving
characters back can never help: the longest run, which must be non-empty. -/
def many1 (p : Char → Bool) : Str → Option Str
  | [] => none
  | c :: cs => if p c then some (cs.dropWhile p) else none

/-! ## deduplicateImports -/

/-- The tail of the import pattern, `["']([^"']+)["'];`: the captured path. -/
def quotedPath : Str → Option Str
  | [] => none
  | q :: r =>
    if q = dquote ∨ q = squote then
      match r.takeWhile (fun c => !(c == dquote || c == squote)),
            r.dropWhile (fun c => !(c == dquote || c == squote)) with
      | [], _ => none
      | p :: ps, q2 :: c :: _ => if c = ';' then (if q2 = dquote ∨ q2 = squote then some (p :: ps) else none) else none
      | _ :: _, _ => none
    else none

/-- The optional group `(?:\{[^}]+\}\s+from\s+)`: the text after it. -/
def bracedFrom (s : Str) : Option Str := do
  let s ← lit ['{'] s
  let s ← many1 (fun c => c != '}') s
  let s ← lit ['}'] s
  let s ← many1 isSpace s
  let s ← lit "from".toList s
  many1 isSpace s

/-- The pattern `/import\s+(?:\{[^}]+\}\s+from\s+)?["']([^"']+)["'];/` tried at
the current position: capture group 1 of the match.  The optional group is
greedy: it is tried first, and skipped when the match cannot be completed
with it. -/
def importAt (s : Str) : Option Str := do
  let s ← lit "import".toList s
  let s ← many1 isSpace s
  (bracedFrom s >>= quotedPath) <|> quotedPath s

/-- The call `line.match(/import\s+(?:\{[^}]+\}\s+from\s+)?["']([^"']+)["'];/)`:
capture group 1 of the leftmost match, `none` when the line has no match. -/
def importMatch : Str → Option Str
  | [] => none
  | c :: cs => importAt (c :: cs) <|> importMatch cs

/-- The guard of lines 53-59: the trimmed line starts with `import `, the import
pattern matches somewhere in the line, and the captured path does not start
with a dot. -/
def isExternalImport (line : Str) : Bool :=
  if startsWith "import ".toList (trim line) then
    match importMatch line with
    | some importPath => !(startsWith ".".toList importPath)
    | none => false
  else false

/-- The loop of `deduplicateImports` over the lines, `seen` being the set
`seenExternalImports` and the returned list the lines pushed to `result`. -/
def dedupLoop : List Str → List Str → List Str
  | _, [] => []
  | seen, line :: rest =>
    if isExternalImport line then
      if seen.contains (trim line) then
        dedupLoop seen rest
      else
        line :: dedupLoop (trim line :: seen) rest
    else
      line :: dedupLoop seen rest

/-- The function `deduplicateImports(content)`. -/
def deduplicateImports (content : Str) : Str :=
  joinLines (dedupLoop [] (splitLines content))

/-- The set `seenExternalImports` once the loop has processed `lines`, starting
from `seen`. -/
def seenAfter : List Str → List Str → List Str
  | seen, [] => seen
  | seen, line :: rest =>
    if isExternalImport line then
      if seen.contains (trim line) then seenAfter seen rest
      else seenAfter (trim line :: seen) rest
    else seenAfter seen rest

/-! ## Global replacement -/

/-- The position test of `^` under the `m` flag: the start of the input or just
after a line terminator.  `prev` is the character before the position. -/
def atLineStart (prev : Option Char) : Bool :=
  match prev with
  | none => true
  | some c => isLineTerminator c

/-- The length of a match, from the text at the position and the text that
remains after the match. -/
def matchLength (s : Str) (rest : Option Str) : Option Nat :=
  rest.map (fun r => s.length - r.length)

/-- The call `string.replace(/re/g, callback)`.  `m prev s` is the length of
the match of the pattern at the position whose text is `s` and whose previous
character is `prev`; `f st offset matched` is the callback, which may read and
update a state `st`, and returns the replacement.  The scan goes left to right;
after a match it resumes right behind the match.  `skip` counts the characters
of the current match still to pass over, `offset` is the index of the position
in the whole string.  Every pattern of the script matches at least one
character, so the empty-match rule of `replace` is never used. -/
def replaceGo {σ : Type} (m : Option Char → Str → Option Nat)
    (f : σ → Nat → Str → Str × σ) :
    Nat → Nat → Option Char → σ → Str → Str × σ
  | _, _, _, st, [] => ([], st)
  | skip + 1, offset, _, st, c :: cs =>
    replaceGo m f skip (offset + 1) (some c) st cs
  | 0, offset, prev, st, c :: cs =>
    match m prev (c :: cs) with
    | some (n + 1) =>
      let r := f st offset ((c :: cs).take (n + 1))
      let out := replaceGo m f n (offset + 1) (some c) r.2 cs
      (r.1 ++ out.1, out.2)
    | _ =>
      let out := replaceGo m f 0 (offset + 1) (some c) st cs
      (c :: out.1, out.2)

/-- The call `string.replace(/re/g, repl)` with a constant replacement. -/
def replaceAll (m : Option Char → Str → Option Nat) (repl : Str) (s : Str) : Str :=
  (replaceGo m (fun (_ : Unit) _ _ => (repl, ())) 0 0 none () s).1

/-- The call `string.match(/re/g)`: the texts of the matches, left to right,
none overlapping another. -/
def allMatches (m : Option Char → Str → Option Nat) (s : Str) : List Str :=
  (replaceGo m (fun (acc : List Str) _ matched => (matched, acc ++ [matched])) 0 0 none [] s).2

/-! ## cleanContent -/

/-- The greedy `\s*` followed by `$` under the `m` flag: the star first tries
to take one more white-space character, and when the rest cannot match that
way it stops, and `$` asks for the end of the input or a line terminator
next. -/
def spacesToLineEnd : Str → Option Str
  | [] => some []
  | c :: cs =>
    (if isSpace c then spacesToLineEnd cs else none) <|>
      (if isLineTerminator c then some (c :: cs) else none)

/-- The tail of both relative-import patterns: the lazy `.*?` followed by
`";\s*$`.  The lazy star first tries the rest of the pattern at the position,
and only when that fails takes one more character that is not a line
terminator. -/
def relativeImportTail : Str → Option Str
  | [] => none
  | c :: cs =>
    (lit [dquote, ';'] (c :: cs) >>= spacesToLineEnd) <|>
      (if isLineTerminator c then none else relativeImportTail cs)

/-- The piece `"\.{1,2}\/` of both relative-import patterns: the greedy
`\.{1,2}` tries two dots before one. -/
def relativePathStart (s : Str) : Option Str := do
  let s ← lit [dquote] s
  lit "../".toList s <|> lit "./".toList s

/-- The pattern `/^\/\/\s*SPDX-License-Identifier:.*$/gm` at a position.  The
greedy `\s*` is followed by the letter `S` and the greedy `.*` by `$`, so
both take their longest run. -/
def spdxAt (prev : Option Char) (s : Str) : Option Str :=
  if atLineStart prev then do
    let s ← lit "//".toList s
    let s := s.dropWhile isSpace
    let s ← lit "SPDX-License-Identifier:".toList s
    some (s.dropWhile (fun c => !isLineTerminator c))
  else none

/-- The pattern `/^import\s+{[^}]+}\s+from\s+"\.{1,2}\/.*?";\s*$/gm` at a
position. -/
def bracedRelativeImportAt (prev : Option Char) (s : Str) : Option Str :=
  if atLineStart prev then do
    let s ← lit "import".toList s
    let s ← many1 isSpace s
    let s ← lit ['{'] s
    let s ← many1 (fun c => c != '}') s
    let s ← lit ['}'] s
    let s ← many1 isSpace s
    let s ← lit "from".toList s
    let s ← many1 isSpace s
    let s ← relativePathStart s
    relativeImportTail s
  else none

/-- The pattern `/^import\s+"\.{1,2}\/.*?";\s*$/gm` at a position. -/
def bareRelativeImportAt (prev : Option Char) (s : Str) : Option Str :=
  if atLineStart prev then do
    let s ← lit "import".toList s
    let s ← many1 isSpace s
    let s ← relativePathStart s
    relativeImportTail s
  else none

/-- The text after the first `*/`. -/
def afterCommentClose : Str → Option Str
  | [] => none
  | c :: cs =>
    match c, cs with
    | '*', '/' :: r => some r
    | _, _ => afterCommentClose cs

/-- The pattern `/\/\*[^*]*\*+(?:[^/*][^*]*\*+)*\//g` at a position.  The words
of this pattern are `/*`, then a text that holds no `*/`, then `*/`: inside
the pattern every run of stars is followed by a character other than `/`,
except the last run, which `/` follows.  So from a given `/*` there is at most
one match, the one that ends at the first `*/` behind the opener, and the
backtracking search finds it whenever it exists. -/
def blockCommentAt (_prev : Option Char) (s : Str) : Option Str :=
  lit "/*".toList s >>= afterCommentClose

/-- The lower-case form of an upper-case ASCII letter; every other character is
left alone.  Without the `u` flag, the `i` flag never lets a non-ASCII
character match an ASCII letter. -/
def lowerAscii (c : Char) : Char :=
  if 65 ≤ c.toNat ∧ c.toNat ≤ 90 then Char.ofNat (c.toNat + 32) else c

/-- A literal under the `i` flag; `p` is given in lower case. -/
def litNoCase : Str → Str → Option Str
  | [], s => some s
  | _ :: _, [] => none
  | p :: ps, c :: cs => if p = lowerAscii c then litNoCase ps cs else none

/-- Whether the literal `p` (in lower case) occurs somewhere in `s`, under the
`i` flag. -/
def containsNoCase (p : Str) : Str → Bool
  | [] => (litNoCase p []).isSome
  | c :: cs => (litNoCase p (c :: cs)).isSome || containsNoCase p cs

/-- The test `/copyright|file:/i.test(match)`. -/
def isBoilerplateComment (matched : Str) : Bool :=
  containsNoCase "copyright".toList matched || containsNoCase "file:".toList matched

/-- The pattern `/\/\/\s*File:.*/gi` at a position. -/
def fileMarkerAt (_prev : Option Char) (s : Str) : Option Str := do
  let s ← lit "//".toList s
  let s := s.dropWhile isSpace
  let s ← litNoCase "file:".toList s
  some (s.dropWhile (fun c => !isLineTerminator c))

/-- The pattern `/pragma solidity [^;]+;/g` at a position. -/
def pragmaAt (_prev : Option Char) (s : Str) : Option Str := do
  let s ← lit "pragma solidity ".toList s
  let s ← many1 (fun c => c != ';') s
  lit ";".toList s

/-- The call `string.indexOf(needle)`: the index of the first occurrence,
`none` standing for `-1`. -/
def indexOf (needle : Str) : Str → Option Nat
  | [] => if needle = [] then some 0 else none
  | c :: cs =>
    if startsWith needle (c :: cs) then some 0
    else (indexOf needle cs).map (fun i => i + 1)

/-- The greedy `\s*` followed by `\n`: the star first tries to take one more
white-space character, and when the rest cannot match that way it stops and
a line feed must come next. -/
def spacesThenNewline : Str → Option Str
  | [] => none
  | c :: cs =>
    (if isSpace c then spacesThenNewline cs else none) <|>
      (if c = '\n' then some cs else none)

/-- The pattern `/\n\s*\n/g` at a position. -/
def blankRunAt (_prev : Option Char) (s : Str) : Option Str :=
  lit "\n".toList s >>= spacesThenNewline

/-- The pragma step of `cleanContent` (lines 40-42): a match is kept when the
first occurrence of its text in the whole string is the match itself, and
replaced by the empty string otherwise. -/
def keepFirstPragmaText (string : Str) : Str :=
  (replaceGo (fun prev s => matchLength s (pragmaAt prev s))
    (fun (_ : Unit) offset matched =>
      (if indexOf matched string = some offset then matched else [], ()))
    0 0 none () string).1

/-- The function `cleanContent(content)`. -/
def cleanContent (content : Str) : Str :=
  let c1 := replaceAll (fun prev s => matchLength s (spdxAt prev s)) [] content
  let c2 := replaceAll (fun prev s => matchLength s (bracedRelativeImportAt prev s)) [] c1
  let c3 := replaceAll (fun prev s => matchLength s (bareRelativeImportAt prev s)) [] c2
  let c4 := (replaceGo (fun prev s => matchLength s (blockCommentAt prev s))
    (fun (_ : Unit) _ matched => (if isBoilerplateComment matched then [] else matched, ()))
    0 0 none () c3).1
  let c5 := replaceAll (fun prev s => matchLength s (fileMarkerAt prev s)) [] c4
  let c6 := keepFirstPragmaText c5
  let c7 := replaceAll (fun prev s => matchLength s (blankRunAt prev s)) "\n".toList c6
  trim c7

/-! ## mergeContractsFromFiles -/

/-- The replacement of lines 84-88 on one file's text: `seenPragma` is the
flag on entry; the result is the new text and the flag on exit. -/
def dropSeenPragmas (seenPragma : Bool) (content : Str) : Str × Bool :=
  replaceGo (fun prev s => matchLength s (pragmaAt prev s))
    (fun (seen : Bool) _ matched => if seen then ([], seen) else (matched, true))
    0 0 none seenPragma content

/-- The loop of lines 81-90 over the texts of the files, in order: the state is
`mergedContent` and `seenPragma`, the result the final `mergedContent`. -/
def mergeLoop : Str → Bool → List Str → Str
  | mergedContent, _, [] => mergedContent
  | mergedContent, seenPragma, content :: rest =>
    let r := dropSeenPragmas seenPragma content
    mergeLoop (mergedContent ++ cleanContent r.1 ++ "\n".toList) r.2 rest

/-- The function `mergeContractsFromFiles(solidityFiles, outputFile)`: the
text written to `outputFile`.  The files are given by the texts that
`readFileSync` returns for them, in the order of `solidityFiles`. -/
def mergeContractsFromFiles (solidityFiles : List Str) : Str :=
  trim (deduplicateImports (mergeLoop [] false solidityFiles))

/-- The compiler-version directives of a text: the matches of
`/pragma solidity [^;]+;/g`. -/
def pragmaDirectives (s : Str) : List Str :=
  allMatches (fun prev s => matchLength s (pragmaAt prev s)) s

/-- Whether a whole line is a relative import statement, in the braced or the
bare form: one of the two relative-import patterns of `cleanContent` matches
from the start of the line to its end. -/
def isRelativeImportLine (line : Str) : Bool :=
  bracedRelativeImportAt none line == some [] || bareRelativeImportAt none line == some []

/-! ## The directory tree and path.join -/

/-- What `readdirSync` and `statSync` show of a directory: its entries in
listing order, each a plain file or a directory with its own listing. -/
inductive Listing where
  | nil : Listing
  | file (name : Str) (rest : Listing) : Listing
  | dir (name : Str) (children : Listing) (rest : Listing) : Listing

/-- One step of Node's `normalizeString` on the stack of kept segments (the
last one first): empty and `.` segments are dropped, `..` removes the last
kept segment, or is kept itself when there is none to remove and the path is
relative. -/
def pushSegment (allowAboveRoot : Bool) (stack : List Str) (seg : Str) : List Str :=
  if seg = [] ∨ seg = ".".toList then stack
  else if seg = "..".toList then
    match stack with
    | [] => if allowAboveRoot then [seg] else []
    | top :: below =>
      if top = "..".toList then (if allowAboveRoot then seg :: top :: below else top :: below)
      else below
  else seg :: stack

/-- Node's POSIX `path.normalize`. -/
def pathNormalize (path : Str) : Str :=
  if path = [] then ".".toList
  else
    let isAbsolute := startsWith "/".toList path
    let trailingSeparator := startsWith "/".toList path.reverse
    let body := joinWith '/' ((splitOn '/' path).foldl (pushSegment (!isAbsolute)) []).reverse
    if body = [] then
      if isAbsolute then "/".toList else if trailingSeparator then "./".toList else ".".toList
    else
      let body := if trailingSeparator then body ++ "/".toList else body
      if isAbsolute then '/' :: body else body

/-- Node's POSIX `path.join(dir, file)`: the non-empty arguments joined by a
slash, then normalized. -/
def pathJoin (dir file : Str) : Str :=
  if dir = [] then (if file = [] then ".".toList else pathNormalize file)
  else if file = [] then pathNormalize dir
  else pathNormalize (dir ++ '/' :: file)

/-- The method `s.endsWith(suffix)`. -/
def endsWith (suffix s : Str) : Bool := startsWith suffix.reverse s.reverse

/-- The method `s.includes(needle)`. -/
def includes (needle : Str) : Str → Bool
  | [] => startsWith needle []
  | c :: cs => startsWith needle (c :: cs) || includes needle cs

/-- Lines 21-25 of `getSolidityFiles`: the special case for the test
directory, and the returned list. -/
def withTestExtra (dir : Str) (fileList : List Str) : List Str :=
  if dir = "./test".toList then fileList ++ ["./script/LibDeploy.sol".toList] else fileList

/-- The `forEach` of `getSolidityFiles` (lines 9-20) over the listing of `dir`.
For a directory entry the recursive call `getSolidityFiles(filePath, fileList,
filterFunc)` is the loop over the children followed by lines 21-25. -/
def forEachEntry (filterFunc : Option (Str → Bool)) : Str → Listing → List Str → List Str
  | _, .nil, fileList => fileList
  | dir, .file file rest, fileList =>
    let filePath := pathJoin dir file
    if endsWith ".sol".toList file then
      if filterFunc.isNone || filterFunc.any (fun f => f file) then
        forEachEntry filterFunc dir rest (fileList ++ [filePath])
      else forEachEntry filterFunc dir rest fileList
    else forEachEntry filterFunc dir rest fileList
  | dir, .dir file children rest, fileList =>
    let filePath := pathJoin dir file
    forEachEntry filterFunc dir rest
      (withTestExtra filePath (forEachEntry filterFunc filePath children fileList))

/-- The function `getSolidityFiles(dir, fileList, filterFunc)`, on the listing
of `dir`. -/
def getSolidityFiles (dir : Str) (files : Listing) (fileList : List Str)
    (filterFunc : Option (Str → Bool)) : List Str :=
  withTestExtra dir (forEachEntry filterFunc dir files fileList)

/-- Line 101: `contractsFiles`, from the listing of `./contracts`. -/
def contractsFiles (contracts : Listing) : List Str :=
  getSolidityFiles "./contracts".toList contracts []
    (some (fun file => !includes "Mock".toList file))

/-- Line 106: `testFiles`, from the listing of `./test`. -/
def testFiles (test : Listing) : List Str :=
  getSolidityFiles "./test".toList test [] none

/-- Line 107: `mockFiles`, from the listing of `./contracts`. -/
def mockFiles (contracts : Listing) : List Str :=
  getSolidityFiles "./contracts".toList contracts []
    (some (fun file => includes "Mock".toList file))

/-- The file list of the production job (line 102). -/
def productionJobFiles (contracts : Listing) : List Str := contractsFiles contracts

/-- The file list of the test job (line 108): `testFiles.concat(mockFiles)`. -/
def testJobFiles (contracts test : Listing) : List Str :=
  testFiles test ++ mockFiles contracts

/-- The non-directory entries below `dir`, each with its path and its name, in
depth-first order following each directory's listing order. -/
def fileEntries : Str → Listing → List (Str × Str)
  | _, .nil => []
  | dir, .file file rest => (pathJoin dir file, file) :: fileEntries dir rest
  | dir, .dir file children rest =>
    fileEntries (pathJoin dir file) children ++ fileEntries dir rest

/-- A name that `readdirSync` can return: not empty, without a slash, and
neither `.` nor `..`. -/
def ValidName (name : Str) : Prop :=
  name ≠ [] ∧ '/' ∉ name ∧ name ≠ ".".toList ∧ name ≠ "..".toList

/-- Every entry of the tree has a name that `readdirSync` can return. -/
def Listing.WellFormed : Listing → Prop
  | .nil => True
  | .file name rest => ValidName name ∧ rest.WellFormed
  | .dir name children rest => ValidName name ∧ children.WellFormed ∧ rest.WellFormed

/-- The segments that `path.normalize` keeps of a relative directory path `dir`
are `top` followed by `names`. -/
def Rooted (top : Str) (names : List Str) (dir : Str) : Prop :=
  dir ≠ [] ∧ startsWith "/".toList dir = false ∧
    ((splitOn '/' dir).foldl (pushSegment true) []).reverse = top :: names

/-- The test of lines 14-16 on a file name: the name ends with `.sol`, and the
filter is absent or accepts the name. -/
def keepsFile (filterFunc : Option (Str → Bool)) (file : Str) : Bool :=
  endsWith ".sol".toList file &&
    (match filterFunc with
     | none => true
     | some f => f file)

/-! ## Concrete inputs -/

/-- File A of scenario 1, one statement per line. -/
def scenarioA : Str :=
  "pragma solidity ^0.8.0;\nimport \"./Local.sol\";\ncontract A {}\n".toList

/-- File B of scenario 1, one statement per line. -/
def scenarioB : Str :=
  "pragma solidity ^0.8.0;\nimport \"x/Ext.sol\";\ncontract B {}\n".toList

/-- A file whose copyright comment quotes a version directive ahead of the
real one. -/
def copyrightFile : Str :=
  "/* Copyright (c) 2024 Acme. Build with pragma solidity ^0.8.0; */\npragma solidity ^0.8.0;\ncontract A {}\n".toList

/-- A file with a version directive and a contract. -/
def plainFile : Str := "pragma solidity ^0.8.0;\ncontract A {}\n".toList

/-- A file whose version directive has a file-marker comment between its first
two words. -/
def markedPragmaFile : Str :=
  "pragma /* File: B.sol */solidity ^0.7.0;\ncontract B {}\n".toList

/-- A file whose relative import is followed, on the same line, by a
file-marker comment. -/
def markedImportFile : Str :=
  "import \"./Local.sol\";// File: Local.sol\ncontract A {}\n".toList

/-- A file whose relative import is written with single quotes. -/
def singleQuoteImportFile : Str := "import './Local.sol';\ncontract A {}\n".toList

/-- A text with the same external import twice, the second time indented. -/
def indentedRepeat : Str := "import \"x/Ext.sol\";\n  import \"x/Ext.sol\";".toList

/-- A text with an external import twice, a relative import twice and a
contract. -/
def repeatedImports : Str :=
  "import \"x/Ext.sol\";\nimport \"./Local.sol\";\nimport \"x/Ext.sol\";\nimport \"./Local.sol\";\ncontract A {}".toList

/-- A contracts tree: `A.sol`, a directory `sub` holding `BMock.sol` and
`notes.txt`, and `C.sol`. -/
def sampleContracts : Listing :=
  .file "A.sol".toList
    (.dir "sub".toList (.file "BMock.sol".toList (.file "notes.txt".toList .nil))
      (.file "C.sol".toList .nil))

/-- A tests tree: `A.t.sol` and an empty directory `util`. -/
def sampleTests : Listing :=
  .file "A.t.sol".toList (.dir "util".toList .nil .nil)

/-- The previous character once the scan has passed over `l`. -/
def prevAfter : Option Char → Str → Option Char
  | prev, [] => prev
  | _, c :: cs => prevAfter (some c) cs

/-- A text holds a blank run: two line feeds with only white space between. -/
def HasBlankRun (s : Str) : Prop :=
  ∃ pre w post, s = pre ++ '\n' :: (w ++ '\n' :: post) ∧ ∀ c ∈ w, isSpace c = true

/-- A file with two version directives that differ. -/
def twoPragmaFile : Str :=
  "pragma solidity ^0.8.0;\npragma solidity ^0.7.0;\ncontract A {}\n".toList

/-- A file with the same version directive twice. -/
def samePragmaFile : Str :=
  "pragma solidity ^0.8.0;\npragma solidity ^0.8.0;\ncontract A {}\n".toList

/-- A tests tree without any `.sol` file: a directory `util` holding
`notes.txt`. -/
def testsWithoutSources : Listing :=
  .dir "util".toList (.file "notes.txt".toList .nil) .nil

/-- The texts that the loop of lines 81-90 appends for the files, in order: for
each file, `cleanContent` of its text after the replacement of lines 84-88,
which runs with the flag left by the files before it.  For a file behind the
first directive this is not `cleanContent` of its raw text: a file that holds
a directive and nothing else has an empty appended text. -/
def appendedTexts : Bool → List Str → List Str
  | _, [] => []
  | seenPragma, content :: rest =>
    let r := dropSeenPragmas seenPragma content
    cleanContent r.1 :: appendedTexts r.2 rest

/-- The buffer made of the given texts, each followed by a line feed. -/
def bufferOf : List Str → Str
  | [] => []
  | c :: cs => c ++ '\n' :: bufferOf cs

/-- The buffer as C18 words it: `cleanContent` is applied to each file's raw
text first, the normalized text is then passed through the replacement of
lines 84-88 with the running flag, and a line feed is appended after each
file. -/
def normalizeThenReduceBuffer : Str → Bool → List Str → Str
  | buffer, _, [] => buffer
  | buffer, seenPragma, content :: rest =>
    let r := dropSeenPragmas seenPragma (cleanContent content)
    normalizeThenReduceBuffer (buffer ++ r.1 ++ "\n".toList) r.2 rest

/-- A file that holds one contract and nothing else. -/
def contractAFile : Str := "contract A {}\n".toList

/-- A second file that holds one contract and nothing else. -/
def contractBFile : Str := "contract B {}\n".toList

/-- An index file: a license line and a relative import, so that
`cleanContent` of it, and the text appended for it, are empty. -/
def indexFile : Str := "// SPDX-License-Identifier: MIT\nimport \"./A.sol\";\n".toList

/-- A file that holds a version directive and nothing else: `cleanContent` of
it is the directive, and behind a file with a directive the text appended for
it is empty. -/
def pragmaOnlyFile : Str := "pragma solidity ^0.8.0;\n".toList

/-- The lines of the given texts, one text after the other. -/
def bufferLines : List Str → List Str
  | [] => []
  | c :: cs => splitLines c ++ bufferLines cs

/-- A text with the same external import twice, written with a tab after
`import`. -/
def tabbedRepeat : Str := "import\t\"x/Ext.sol\";\nimport\t\"x/Ext.sol\";".toList

/-- A text with the same external import twice, written with an alias. -/
def aliasedRepeat : Str := "import \"x/Ext.sol\" as E;\nimport \"x/Ext.sol\" as E;".toList

end FlatAll

/-! # The receipt backfiller, `src/fix-forge-broadcast.js`

Line numbers in this part are those of `src/fix-forge-broadcast.js`.  The
asynchronous function of lines 12-25 awaits one call at a time, so it is
modelled as a sequential loop in which a rejected call ends the run. -/

namespace ForgeBroadcast

open FlatAll

/-- A value as `JSON.parse` returns it.  A number is given by its value; an
object by its members in the order of the body. -/
inductive Json where
  | null : Json
  | bool (b : Bool) : Json
  | num (x : Rat) : Json
  | str (s : Str) : Json
  | arr (items : List Json) : Json
  | obj (members : List (Str × Json)) : Json

/-- What a promise of the script can be rejected with. -/
inductive Rejection where
  /-- The `SyntaxError` thrown by `JSON.parse`. -/
  | syntaxError : Rejection
  /-- The `TypeError` thrown when a property of `null` is read. -/
  | typeError : Rejection
  /-- The value `new Error(message)` of line 55, with the argument it was built
  from (`none` for `undefined`); for a string argument the message of the
  error is that string. -/
  | rpcError (message : Option Json) : Rejection
  /-- The error passed by the request's `error` event (line 65). -/
  | requestError (reason : Str) : Rejection

/-- The conversion `ToBoolean` on a JSON value. -/
def truthy : Json → Bool
  | .null => false
  | .bool b => b
  | .num x => x != 0
  | .str s => !s.isEmpty
  | .arr _ => true
  | .obj _ => true

/-- The conversion `ToBoolean` on a value that may be `undefined`. -/
def truthyValue : Option Json → Bool
  | none => false
  | some v => truthy v

/-- The member `key` of an object as `JSON.parse` builds it: of two members
with the same key the later one wins. -/
def lookupMember (key : Str) : List (Str × Json) → Option Json
  | [] => none
  | (k, v) :: rest =>
    match lookupMember key rest with
    | some w => some w
    | none => if k = key then some v else none

/-- The property read `value.key` on a value other than `null`, for a key that
no built-in prototype defines (`error`, `result`, `message`, `hash`,
`transactionHash`): the member of an object, `undefined` on anything else. -/
def getMember (value : Json) (key : Str) : Option Json :=
  match value with
  | .obj members => lookupMember key members
  | _ => none

/-- The handler of the response's `end` event (lines 51-62).  `parse` is
`JSON.parse`, `none` standing for a thrown `SyntaxError`; the result is what
the promise is settled with: resolved with a value (`none` for `undefined`),
or rejected. -/
def onEnd (parse : Str → Option Json) (raw : Str) : Except Rejection (Option Json) :=
  match parse raw with
  | none => .error .syntaxError
  | some .null => .error .typeError
  | some parsed =>
    match getMember parsed "error".toList with
    | some err =>
      if truthy err then .error (.rpcError (getMember err "message".toList))
      else .ok (getMember parsed "result".toList)
    | none => .ok (getMember parsed "result".toList)

/-- The comparison `a === b` of two values that come from different places of
parsed JSON: two objects or two arrays are never the same object. -/
def strictEq : Json → Json → Bool
  | .null, .null => true
  | .bool a, .bool b => a == b
  | .num a, .num b => a == b
  | .str a, .str b => a == b
  | _, _ => false

/-- The test of the filter callback of line 18, `r && r.transactionHash ===
tx.hash`, on one slot of the receipts array (`none` for an empty slot or
`undefined`). -/
def matchesHash (hash : Json) (r : Option Json) : Bool :=
  match r with
  | none => false
  | some v =>
    truthy v &&
      (match getMember v "transactionHash".toList with
       | some t => strictEq t hash
       | none => false)

/-- Whether `receipts.filter(r => r && r.transactionHash === tx.hash)[0]` is a
receipt. -/
def hasReceipt (receipts : List (Option Json)) (hash : Json) : Bool :=
  receipts.any (matchesHash hash)

/-- The assignment `receipts[i] = receipt` on an array: a slot within the array
is overwritten, and a slot beyond its end extends the array, the slots in
between staying empty. -/
def setSlot : List (Option Json) → Nat → Option Json → List (Option Json)
  | [], 0, v => [v]
  | [], i + 1, v => none :: setSlot [] i v
  | _ :: rest, 0, v => v :: rest
  | r :: rest, i + 1, v => r :: setSlot rest i v

/-- The read `receipts[k]`: `none` for an empty slot, `undefined`, or an index
beyond the end. -/
def getSlot (receipts : List (Option Json)) (k : Nat) : Option Json :=
  match receipts[k]? with
  | some r => r
  | none => none

/-- One iteration of the loop of lines 13-22, for the transaction `tx` at index
`i`.  `rpc i hash` is what `await getTransactionReceipt(tx.hash)` gives in
iteration `i`: the resolved value, or the rejection, which the `await`
throws.  The result is the receipts array after the iteration, or what was
thrown. -/
def backfillStep (rpc : Nat → Json → Except Rejection (Option Json)) (i : Nat) (tx : Json)
    (receipts : List (Option Json)) : Except Rejection (List (Option Json)) :=
  match tx with
  | .null => .error .typeError
  | _ =>
    match getMember tx "hash".toList with
    | none => .ok receipts
    | some hash =>
      if !truthy hash then .ok receipts
      else if hasReceipt receipts hash then .ok receipts
      else
        match rpc i hash with
        | .error e => .error e
        | .ok receipt => .ok (setSlot receipts i receipt)

/-- The loop of lines 13-22 from index `i` on, over the transactions that
remain: the receipts array after the loop, or what the first failing
iteration threw, which ends the run. -/
def backfillLoop (rpc : Nat → Json → Except Rejection (Option Json)) :
    Nat → List Json → List (Option Json) → Except Rejection (List (Option Json))
  | _, [], receipts => .ok receipts
  | i, tx :: rest, receipts =>
    match backfillStep rpc i tx receipts with
    | .error e => .error e
    | .ok next => backfillLoop rpc (i + 1) rest next

/-- The run of lines 12-25 on a broadcast record with the given transactions
and receipts: the receipts array of the record that line 24 writes back
(`JSON.stringify` writes an empty slot as `null`), or the rejection that ended
the run before line 24. -/
def backfill (rpc : Nat → Json → Except Rejection (Option Json))
    (transactions : List Json) (receipts : List (Option Json)) :
    Except Rejection (List Json) :=
  match backfillLoop rpc 0 transactions receipts with
  | .error e => .error e
  | .ok rs => .ok (rs.map (fun r => r.getD .null))

/-- A transaction with the given hash. -/
def txWithHash (hash : Str) : Json := .obj [("hash".toList, .str hash)]

/-- A receipt for the given transaction hash. -/
def receiptFor (hash : Str) : Json :=
  .obj [("transactionHash".toList, .str hash), ("status".toList, .str "0x1".toList)]

/-- The parsed body of scenario 5, an `error` member with the message
`not found`. -/
def notFoundBody : Json :=
  .obj [("error".toList, .obj [("message".toList, .str "not found".toList)])]

/-- An RPC that rejects the first call with `not found` and resolves every
later call with a receipt for the hash asked for. -/
def failFirstRpc : Nat → Json → Except Rejection (Option Json)
  | 0, _ => .error (.rpcError (some (.str "not found".toList)))
  | _ + 1, .str h => .ok (some (receiptFor h))
  | _ + 1, _ => .ok (some .null)

/-- An RPC that resolves every call with `null`, the answer for a pending or
unknown transaction. -/
def pendingRpc : Nat → Json → Except Rejection (Option Json) :=
  fun _ _ => .ok (some .null)

/-- A body whose `error` member is `null`, next to a result. -/
def nullErrorBody : Json :=
  .obj [("error".toList, .null), ("result".toList, .str "0x1".toList)]

/-- A stand-in for `JSON.parse` on three bodies: the body of scenario 5, a
body with a `null` error member, and the body `null`; any other text is taken
as not valid JSON. -/
def sampleParse (raw : Str) : Option Json :=
  if raw = "\x7b\"error\":\x7b\"message\":\"not found\"\x7d\x7d".toList then some notFoundBody
  else if raw = "\x7b\"error\":null,\"result\":\"0x1\"\x7d".toList then some nullErrorBody
  else if raw = "null".toList then some .null
  else none

end ForgeBroadcast

/-! # The coverage summary, `src/lcov-parse.js`

Line numbers in this part are those of `src/lcov-parse.js`. -/

namespace LcovParse

/-- The names of the summary, the array of line 10. -/
inductive Category where
  | lines : Category
  | functions : Category
  | branches : Category
  | statements : Category

/-- The categories of a record of `lcov-parse`. -/
inductive LcovName where
  | lines : LcovName
  | functions : LcovName
  | branches : LcovName

/-- The two counts of a category. -/
inductive Field where
  | found : Field
  | hit : Field

/-- The counts of one category of a record. -/
structure Counts where
  found : Nat
  hit : Nat

/-- A record of `lcov-parse`, for one source file. -/
structure CoverageRecord where
  lines : Counts
  functions : Counts
  branches : Counts

/-- An entry of the summary; `pct` is kept in the type `P` of the percentage
computation. -/
structure Entry (P : Type) where
  total : Nat
  covered : Nat
  skipped : Nat
  pct : P

/-- Line 11: `name === 'statements' ? 'branches' : name`. -/
def lcovName : Category → LcovName
  | .lines => .lines
  | .functions => .functions
  | .branches => .branches
  | .statements => .branches

/-- The call `get(item, lcovName + "." + field)` (lines 29-35). -/
def get (item : CoverageRecord) (name : LcovName) (field : Field) : Nat :=
  let counts :=
    match name with
    | .lines => item.lines
    | .functions => item.functions
    | .branches => item.branches
  match field with
  | .found => counts.found
  | .hit => counts.hit

/-- The double nearest to a natural number, ties going to the even
significand: below `2 ^ 53` every natural number is a double.  Numbers beyond
the largest double are outside the model. -/
def toDouble (n : Nat) : Nat :=
  if n < 2 ^ 53 then n
  else
    let ulp := 2 ^ (Nat.log2 n - 52)
    let q := n / ulp
    let r := n % ulp
    if 2 * r < ulp then q * ulp
    else if ulp < 2 * r then (q + 1) * ulp
    else if q % 2 = 0 then q * ulp
    else (q + 1) * ulp

/-- The addition `result += x` of two numbers that hold natural numbers. -/
def jsAdd (a b : Nat) : Nat := toDouble (a + b)

/-- The function `sum(arr, callback)` (lines 24-28). -/
def sum (arr : List CoverageRecord) (callback : CoverageRecord → Nat) : Nat :=
  arr.foldl (fun result item => jsAdd result (callback item)) 0

/-- The entry that the callback of lines 10-19 stores under `name`.  `pctOf
covered total` stands for the floating-point computation of lines 17-18,
`Math.round(covered * 100 / total * 100) / 100`. -/
def summaryEntry {P : Type} (pctOf : Nat → Nat → P) (data : List CoverageRecord)
    (name : Category) : Entry P :=
  let total := sum data (fun item => get item (lcovName name) .found)
  let covered := sum data (fun item => get item (lcovName name) .hit)
  { total := total, covered := covered, skipped := 0, pct := pctOf covered total }

/-- The object `res.total` after the `forEach` of line 10, as the map from its
four keys to their entries. -/
def summary {P : Type} (pctOf : Nat → Nat → P) (data : List CoverageRecord) :
    Category → Entry P :=
  fun name => summaryEntry pctOf data name

/-- Two records. -/
def sampleData : List CoverageRecord :=
  [{ lines := ⟨10, 7⟩, functions := ⟨3, 2⟩, branches := ⟨4, 1⟩ },
   { lines := ⟨5, 5⟩, functions := ⟨1, 0⟩, branches := ⟨2, 2⟩ }]

/-- Two records whose line counts add up to `2 ^ 53 + 1`: `2 ^ 53` lines found
in the first and one in the second. -/
def largeData : List CoverageRecord :=
  [{ lines := ⟨2 ^ 53, 0⟩, functions := ⟨0, 0⟩, branches := ⟨0, 0⟩ },
   { lines := ⟨1, 0⟩, functions := ⟨0, 0⟩, branches := ⟨0, 0⟩ }]

end LcovParse

/-! # Properties of `src/flat-all.js` -/

namespace FlatAll

/-! ## Lemmas on splitting and joining -/

theorem splitOn_ne_nil (sep : Char) (s : Str) : splitOn sep s ≠ [] := by
  induction s with
  | nil => simp [splitOn]
  | cons c cs ih =>
    unfold splitOn
    split
    · simp
    · split <;> simp

theorem not_mem_of_mem_splitOn (sep : Char) :
    ∀ (s : Str) (l : Str), l ∈ splitOn sep s → sep ∉ l := by
  intro s
  induction s with
  | nil => intro l hl; simp [splitOn] at hl; simp [hl]
  | cons c cs ih =>
    intro l hl
    unfold splitOn at hl
    split at hl
    · rcases List.mem_cons.1 hl with h | h
      · simp [h]
      · exact ih l h
    · rename_i hc
      split at hl
      · simp at hl; subst hl; simpa using fun h => hc h.symm
      · rename_i l0 ls heq
        rcases List.mem_cons.1 hl with h | h
        · subst h
          have h0 : sep ∉ l0 := ih l0 (by rw [heq]; simp)
          intro hmem
          rcases List.mem_cons.1 hmem with h1 | h1
          · exact hc h1.symm
          · exact h0 h1
        · exact ih l (by rw [heq]; simp [h])

theorem splitOn_append_sep (sep : Char) (l : Str) (h : sep ∉ l) (s : Str) :
    splitOn sep (l ++ sep :: s) = l :: splitOn sep s := by
  induction l with
  | nil => simp [splitOn]
  | cons c cs ih =>
    have hc : c ≠ sep := fun e => h (by simp [e])
    have hcs : sep ∉ cs := fun e => h (by simp [e])
    simp only [List.cons_append]
    rw [splitOn, if_neg hc, ih hcs]

theorem splitOn_of_not_mem (sep : Char) (l : Str) (h : sep ∉ l) :
    splitOn sep l = [l] := by
  induction l with
  | nil => simp [splitOn]
  | cons c cs ih =>
    have hc : c ≠ sep := fun e => h (by simp [e])
    have hcs : sep ∉ cs := fun e => h (by simp [e])
    rw [splitOn, if_neg hc, ih hcs]

/-- Splitting what was joined gives the pieces back, when there is at least one
piece and no piece holds the separator. -/
theorem splitOn_joinWith (sep : Char) :
    ∀ (ls : List Str), ls ≠ [] → (∀ l ∈ ls, sep ∉ l) →
      splitOn sep (joinWith sep ls) = ls := by
  intro ls
  induction ls with
  | nil => intro h; exact absurd rfl h
  | cons l rest ih =>
    intro _ hmem
    cases rest with
    | nil => simpa [joinWith] using splitOn_of_not_mem sep l (hmem l (by simp))
    | cons l2 ls =>
      have h1 : sep ∉ l := hmem l (by simp)
      have h2 := ih (by simp) (fun x hx => hmem x (by simp [hx]))
      simp only [joinWith]
      rw [splitOn_append_sep sep l h1, h2]

/-! ## Lemmas on the deduplication loop -/

theorem dedupLoop_sublist : ∀ (lines seen : List Str),
    (dedupLoop seen lines).Sublist lines := by
  intro lines
  induction lines with
  | nil => intro seen; simp [dedupLoop]
  | cons l rest ih =>
    intro seen
    unfold dedupLoop
    split
    · split
      · exact (ih seen).cons l
      · exact (ih _).cons₂ l
    · exact (ih seen).cons₂ l

theorem dedupLoop_nil_ne_nil (lines : List Str) (h : lines ≠ []) :
    dedupLoop [] lines ≠ [] := by
  cases lines with
  | nil => exact absurd rfl h
  | cons l rest =>
    unfold dedupLoop
    split
    · simp
    · simp

/-- The lines of the text returned by `deduplicateImports` are the lines the
loop pushed. -/
theorem splitLines_deduplicateImports (T : Str) :
    splitLines (deduplicateImports T) = dedupLoop [] (splitLines T) := by
  unfold deduplicateImports splitLines joinLines
  apply splitOn_joinWith
  · exact dedupLoop_nil_ne_nil _ (splitOn_ne_nil _ _)
  · intro l hl
    exact not_mem_of_mem_splitOn _ T l ((dedupLoop_sublist _ _).subset hl)

theorem dedupLoop_append : ∀ (pre post seen : List Str),
    dedupLoop seen (pre ++ post)
      = dedupLoop seen pre ++ dedupLoop (seenAfter seen pre) post := by
  intro pre
  induction pre with
  | nil => intro post seen; simp [dedupLoop, seenAfter]
  | cons l rest ih =>
    intro post seen
    simp only [List.cons_append, dedupLoop, seenAfter]
    split
    · split
      · exact ih post seen
      · simp [ih post]
    · simp [ih post]

/-- Every key in the seen set comes from the initial set or is the trimmed text
of an external import line processed so far. -/
theorem mem_seenAfter : ∀ (lines seen : List Str) (k : Str),
    k ∈ seenAfter seen lines →
      k ∈ seen ∨ ∃ l ∈ lines, isExternalImport l = true ∧ trim l = k := by
  intro lines
  induction lines with
  | nil => intro seen k h; exact Or.inl h
  | cons l rest ih =>
    intro seen k h
    simp only [seenAfter] at h
    split at h
    · rename_i hext
      split at h
      · rcases ih seen k h with h1 | ⟨l2, hl2, h2⟩
        · exact Or.inl h1
        · exact Or.inr ⟨l2, by simp [hl2], h2⟩
      · rcases ih _ k h with h1 | ⟨l2, hl2, h2⟩
        · rcases List.mem_cons.1 h1 with h3 | h3
          · exact Or.inr ⟨l, by simp, hext, h3.symm⟩
          · exact Or.inl h3
        · exact Or.inr ⟨l2, by simp [hl2], h2⟩
    · rcases ih seen k h with h1 | ⟨l2, hl2, h2⟩
      · exact Or.inl h1
      · exact Or.inr ⟨l2, by simp [hl2], h2⟩

/-- A second pass over the output of the loop drops nothing, whatever subset of
the first pass's seen set it starts from. -/
theorem dedupLoop_dedupLoop : ∀ (lines seen seen2 : List Str),
    (∀ k ∈ seen2, k ∈ seen) →
      dedupLoop seen2 (dedupLoop seen lines) = dedupLoop seen lines := by
  intro lines
  induction lines with
  | nil => intro seen seen2 _; simp [dedupLoop]
  | cons l rest ih =>
    intro seen seen2 hsub
    by_cases hext : isExternalImport l = true
    · by_cases hseen : trim l ∈ seen
      · have e : dedupLoop seen (l :: rest) = dedupLoop seen rest := by
          simp [dedupLoop, hext, hseen]
        rw [e]; exact ih seen seen2 hsub
      · have e : dedupLoop seen (l :: rest) = l :: dedupLoop (trim l :: seen) rest := by
          simp [dedupLoop, hext, hseen]
        have hseen2 : trim l ∉ seen2 := fun hc => hseen (hsub _ hc)
        rw [e]
        have e2 : dedupLoop seen2 (l :: dedupLoop (trim l :: seen) rest)
            = l :: dedupLoop (trim l :: seen2) (dedupLoop (trim l :: seen) rest) := by
          simp [dedupLoop, hext, hseen2]
        rw [e2, ih]
        intro k hk
        rcases List.mem_cons.1 hk with h | h
        · simp [h]
        · simp [hsub k h]
    · have e : dedupLoop seen (l :: rest) = l :: dedupLoop seen rest := by
        simp [dedupLoop, hext]
      rw [e]
      have e2 : dedupLoop seen2 (l :: dedupLoop seen rest)
          = l :: dedupLoop seen2 (dedupLoop seen rest) := by
        simp [dedupLoop, hext]
      rw [e2, ih seen seen2 hsub]

/-- A line that is not an external import is pushed every time it comes. -/
theorem count_dedupLoop_of_not_external (line : Str) (h : isExternalImport line = false) :
    ∀ (lines seen : List Str), (dedupLoop seen lines).count line = lines.count line := by
  intro lines
  induction lines with
  | nil => intro seen; simp [dedupLoop]
  | cons l rest ih =>
    intro seen
    by_cases hext : isExternalImport l = true
    · have hne : l ≠ line := by
        intro e; rw [e, h] at hext; exact Bool.noConfusion hext
      by_cases hseen : trim l ∈ seen
      · have e : dedupLoop seen (l :: rest) = dedupLoop seen rest := by
          simp [dedupLoop, hext, hseen]
        rw [e, ih seen, List.count_cons_of_ne hne.symm]
      · have e : dedupLoop seen (l :: rest) = l :: dedupLoop (trim l :: seen) rest := by
          simp [dedupLoop, hext, hseen]
        rw [e, List.count_cons_of_ne hne.symm, List.count_cons_of_ne hne.symm, ih]
    · have e : dedupLoop seen (l :: rest) = l :: dedupLoop seen rest := by
        simp [dedupLoop, hext]
      rw [e, List.count_cons, List.count_cons, ih seen]

/-- No pushed line is an external import whose trimmed text is already in the
seen set. -/
theorem countP_dedupLoop_of_seen (k : Str) :
    ∀ (lines seen : List Str), k ∈ seen →
      (dedupLoop seen lines).countP (fun l => isExternalImport l && trim l == k) = 0 := by
  intro lines
  induction lines with
  | nil => intro seen _; simp [dedupLoop]
  | cons l rest ih =>
    intro seen hk
    by_cases hext : isExternalImport l = true
    · by_cases hseen : trim l ∈ seen
      · have e : dedupLoop seen (l :: rest) = dedupLoop seen rest := by
          simp [dedupLoop, hext, hseen]
        rw [e]; exact ih seen hk
      · have e : dedupLoop seen (l :: rest) = l :: dedupLoop (trim l :: seen) rest := by
          simp [dedupLoop, hext, hseen]
        have hne : trim l ≠ k := fun e => hseen (e ▸ hk)
        rw [e, List.countP_cons_of_neg _ _ (by simp [hext, hne])]
        exact ih _ (by simp [hk])
    · have e : dedupLoop seen (l :: rest) = l :: dedupLoop seen rest := by
        simp [dedupLoop, hext]
      rw [e, List.countP_cons_of_neg _ _ (by simp [hext])]
      exact ih seen hk

/-- At most one pushed line is an external import with a given trimmed text. -/
theorem countP_dedupLoop_le_one (k : Str) :
    ∀ (lines seen : List Str),
      (dedupLoop seen lines).countP (fun l => isExternalImport l && trim l == k) ≤ 1 := by
  intro lines
  induction lines with
  | nil => intro seen; simp [dedupLoop]
  | cons l rest ih =>
    intro seen
    by_cases hext : isExternalImport l = true
    · by_cases hseen : trim l ∈ seen
      · have e : dedupLoop seen (l :: rest) = dedupLoop seen rest := by
          simp [dedupLoop, hext, hseen]
        rw [e]; exact ih seen
      · have e : dedupLoop seen (l :: rest) = l :: dedupLoop (trim l :: seen) rest := by
          simp [dedupLoop, hext, hseen]
        rw [e]
        by_cases hk : trim l = k
        · rw [List.countP_cons_of_pos _ _ (by simp [hext, hk]),
            countP_dedupLoop_of_seen k rest (trim l :: seen) (by simp [hk])]
        · rw [List.countP_cons_of_neg _ _ (by simp [hext, hk])]
          exact ih _
    · have e : dedupLoop seen (l :: rest) = l :: dedupLoop seen rest := by
        simp [dedupLoop, hext]
      rw [e, List.countP_cons_of_neg _ _ (by simp [hext])]
      exact ih seen

/-- When an external import with trimmed text `k` is among the lines and `k` is
not yet in the seen set, exactly one pushed line is an external import with
that trimmed text. -/
theorem countP_dedupLoop_eq_one (k : Str) :
    ∀ (lines seen : List Str), k ∉ seen →
      (∃ l ∈ lines, isExternalImport l = true ∧ trim l = k) →
      (dedupLoop seen lines).countP (fun l => isExternalImport l && trim l == k) = 1 := by
  intro lines
  induction lines with
  | nil => intro seen _ h; rcases h with ⟨l, hl, _⟩; simp at hl
  | cons l rest ih =>
    intro seen hk hex
    by_cases hext : isExternalImport l = true
    · by_cases hseen : trim l ∈ seen
      · have e : dedupLoop seen (l :: rest) = dedupLoop seen rest := by
          simp [dedupLoop, hext, hseen]
        have hne : trim l ≠ k := fun e => hk (e ▸ hseen)
        rw [e]
        apply ih seen hk
        rcases hex with ⟨l2, hl2, h2, h3⟩
        rcases List.mem_cons.1 hl2 with h4 | h4
        · subst h4; exact absurd h3 hne
        · exact ⟨l2, h4, h2, h3⟩
      · have e : dedupLoop seen (l :: rest) = l :: dedupLoop (trim l :: seen) rest := by
          simp [dedupLoop, hext, hseen]
        rw [e]
        by_cases hkl : trim l = k
        · rw [List.countP_cons_of_pos _ _ (by simp [hext, hkl]),
            countP_dedupLoop_of_seen k rest (trim l :: seen) (by simp [hkl])]
        · rw [List.countP_cons_of_neg _ _ (by simp [hext, hkl])]
          apply ih
          · intro hmem
            rcases List.mem_cons.1 hmem with h | h
            · exact hkl h.symm
            · exact hk h
          · rcases hex with ⟨l2, hl2, h2, h3⟩
            rcases List.mem_cons.1 hl2 with h4 | h4
            · subst h4; exact absurd h3 hkl
            · exact ⟨l2, h4, h2, h3⟩
    · have e : dedupLoop seen (l :: rest) = l :: dedupLoop seen rest := by
        simp [dedupLoop, hext]
      rw [e, List.countP_cons_of_neg _ _ (by simp [hext])]
      apply ih seen hk
      rcases hex with ⟨l2, hl2, h2, h3⟩
      rcases List.mem_cons.1 hl2 with h4 | h4
      · subst h4; exact absurd h2 hext
      · exact ⟨l2, h4, h2, h3⟩

/-- The loop pushes nothing for `line`, coming after `pre`, only when `line` is
an external import whose trimmed text is in the seen set. -/
theorem dedupLoop_snoc_eq (pre : List Str) (line : Str)
    (h : dedupLoop [] (pre ++ [line]) = dedupLoop [] pre) :
    isExternalImport line = true ∧ trim line ∈ seenAfter [] pre := by
  rw [dedupLoop_append] at h
  have h2 : dedupLoop (seenAfter [] pre) [line] = [] := by
    have := congrArg List.length h
    simp only [List.length_append] at this
    exact List.eq_nil_of_length_eq_zero (by omega)
  by_cases hext : isExternalImport line = true
  · by_cases hseen : trim line ∈ seenAfter [] pre
    · exact ⟨hext, hseen⟩
    · simp [dedupLoop, hext, hseen] at h2
  · simp [dedupLoop, hext] at h2

/-! ## Lemmas on path.join -/

theorem splitOn_snoc_sep (sep : Char) (n : Str) (hn : sep ∉ n) :
    ∀ s : Str, splitOn sep (s ++ sep :: n) = splitOn sep s ++ [n] := by
  intro s
  induction s with
  | nil => simp [splitOn, splitOn_of_not_mem sep n hn]
  | cons c cs ih =>
    simp only [List.cons_append]
    by_cases hc : c = sep
    · rw [splitOn, if_pos hc, ih, splitOn, if_pos hc]; rfl
    · rw [splitOn, if_neg hc, ih, splitOn, if_neg hc]
      cases h : splitOn sep cs with
      | nil => exact absurd h (splitOn_ne_nil sep cs)
      | cons l ls => simp

theorem joinWith_cons_ne_nil (sep : Char) (l : Str) (ls : List Str) (h : l ≠ []) :
    joinWith sep (l :: ls) ≠ [] := by
  cases ls with
  | nil => simpa [joinWith] using h
  | cons l2 ls => simp [joinWith, h]

theorem joinWith_snoc_ne_nil (sep : Char) (ls : List Str) (n : Str) (h : n ≠ []) :
    joinWith sep (ls ++ [n]) ≠ [] := by
  cases ls with
  | nil => simpa [joinWith] using h
  | cons l rest =>
    cases hr : rest ++ [n] with
    | nil => simp at hr
    | cons l2 ls2 => simp [hr, joinWith]

/-- The segments kept by `normalizeString` are never empty, never `.`, and hold
no slash, when the segments fed to it hold no slash. -/
theorem foldl_pushSegment_inv (b : Bool) :
    ∀ (segs stack : List Str), (∀ x ∈ segs, '/' ∉ x) →
      (∀ x ∈ stack, x ≠ [] ∧ x ≠ ".".toList ∧ '/' ∉ x) →
      ∀ x ∈ segs.foldl (pushSegment b) stack, x ≠ [] ∧ x ≠ ".".toList ∧ '/' ∉ x := by
  intro segs
  induction segs with
  | nil => intro stack _ h; simpa using h
  | cons seg rest ih =>
    intro stack hsegs hstack
    simp only [List.foldl_cons]
    apply ih
    · intro x hx; exact hsegs x (by simp [hx])
    · have hseg : '/' ∉ seg := hsegs seg (by simp)
      intro x hx
      unfold pushSegment at hx
      split at hx
      · exact hstack x hx
      · rename_i h1
        have h1a : seg ≠ [] := fun e => h1 (Or.inl e)
        have h1b : seg ≠ ".".toList := fun e => h1 (Or.inr e)
        split at hx
        · split at hx
          · split at hx
            · simp at hx; subst hx; exact ⟨h1a, h1b, hseg⟩
            · simp at hx
          · rename_i top below
            split at hx
            · split at hx
              · rcases List.mem_cons.1 hx with h | h
                · subst h; exact ⟨h1a, h1b, hseg⟩
                · exact hstack x h
              · exact hstack x hx
            · exact hstack x (by simp [hx])
        · rcases List.mem_cons.1 hx with h | h
          · subst h; exact ⟨h1a, h1b, hseg⟩
          · exact hstack x h

/-- A joined list of kept segments does not start with `./`. -/
theorem startsWith_dotSlash_joinWith (l : Str) (ls : List Str) (suffix : Str)
    (h : l ≠ [] ∧ l ≠ ".".toList ∧ '/' ∉ l) :
    startsWith "./".toList (joinWith '/' (l :: ls) ++ suffix) = false := by
  obtain ⟨h1, h2, h3⟩ := h
  cases l with
  | nil => exact absurd rfl h1
  | cons c0 l1 =>
    cases l1 with
    | nil =>
      have hc : c0 ≠ '.' := fun e => h2 (by simp [e])
      cases ls <;> simp [joinWith, startsWith, Ne.symm hc]
    | cons c1 l2 =>
      have hc : c1 ≠ '/' := fun e => h3 (by simp [e])
      cases ls <;> simp [joinWith, startsWith, Ne.symm hc]

/-- The result of `path.normalize` is `./` or does not start with `./`. -/
theorem pathNormalize_dotSlash (path : Str) :
    pathNormalize path = "./".toList ∨ startsWith "./".toList (pathNormalize path) = false := by
  unfold pathNormalize
  split
  · right; decide
  · simp only
    split
    · split
      · right; decide
      · split
        · left; rfl
        · right; decide
    · rename_i hbody
      split
      · right; simp [startsWith]
      · right
        have hinv := foldl_pushSegment_inv (!startsWith "/".toList path) (splitOn '/' path) []
          (fun x hx => not_mem_of_mem_splitOn '/' path x hx) (by simp)
        cases hs : ((splitOn '/' path).foldl
            (pushSegment (!startsWith "/".toList path)) []).reverse with
        | nil => rw [hs] at hbody; exact absurd rfl hbody
        | cons l ls =>
          have hl := hinv l (by
            have : l ∈ ((splitOn '/' path).foldl
              (pushSegment (!startsWith "/".toList path)) []).reverse := by rw [hs]; simp
            simpa using this)
          split
          · exact startsWith_dotSlash_joinWith l ls _ hl
          · simpa using startsWith_dotSlash_joinWith l ls [] hl

/-- No call of `path.join` returns the tests root `./test`: the special case of
line 22 can only fire for the directory the caller names. -/
theorem pathJoin_ne_test (dir file : Str) : pathJoin dir file ≠ "./test".toList := by
  have key : ∀ path, pathNormalize path ≠ "./test".toList := by
    intro path h
    rcases pathNormalize_dotSlash path with h1 | h1
    · rw [h1] at h; revert h; decide
    · rw [h] at h1; revert h1; decide
  unfold pathJoin
  split
  · split
    · decide
    · exact key _
  · split
    · exact key _
    · exact key _

theorem foldl_pushSegment_snoc (stack : List Str) (n : Str) (hn : ValidName n) :
    pushSegment true stack n = n :: stack := by
  obtain ⟨h1, _, h3, h4⟩ := hn
  unfold pushSegment
  rw [if_neg (not_or.2 ⟨h1, h3⟩), if_neg h4]

theorem foldl_pushSegment_valid :
    ∀ (segs stack : List Str), (∀ x ∈ segs, ValidName x) →
      segs.foldl (pushSegment true) stack = segs.reverse ++ stack := by
  intro segs
  induction segs with
  | nil => intro stack _; simp
  | cons seg rest ih =>
    intro stack h
    simp only [List.foldl_cons]
    rw [foldl_pushSegment_snoc stack seg (h seg (by simp)),
      ih _ (fun x hx => h x (by simp [hx]))]
    simp

theorem startsWith_slash_cons (c : Char) (cs : Str) (h : c ≠ '/') :
    startsWith "/".toList (c :: cs) = false := by
  simp [startsWith, Ne.symm h]

theorem startsWith_slash_append (dir rest : Str) (hd : dir ≠ [])
    (h : startsWith "/".toList dir = false) :
    startsWith "/".toList (dir ++ rest) = false := by
  cases dir with
  | nil => exact absurd rfl hd
  | cons c cs =>
    by_cases hc : c = '/'
    · subst hc; simp [startsWith] at h
    · simpa using startsWith_slash_cons c (cs ++ rest) hc

/-- Joining a valid name to a relative directory appends the name to the kept
segments of the directory. -/
theorem pathJoin_rooted (top : Str) (names : List Str) (dir n : Str)
    (hd : Rooted top names dir) (hn : ValidName n) :
    pathJoin dir n = joinWith '/' (top :: (names ++ [n])) := by
  obtain ⟨hd1, hd2, hd3⟩ := hd
  have hn' := hn
  obtain ⟨hn1, hn2, _, _⟩ := hn
  unfold pathJoin
  rw [if_neg hd1, if_neg hn1]
  unfold pathNormalize
  rw [if_neg (by simp)]
  have habs : startsWith "/".toList (dir ++ '/' :: n) = false :=
    startsWith_slash_append dir _ hd1 hd2
  have htrail : startsWith "/".toList (dir ++ '/' :: n).reverse = false := by
    have : (dir ++ '/' :: n).reverse = n.reverse ++ ('/' :: dir.reverse) := by simp
    rw [this]
    cases hr : n.reverse with
    | nil => simp at hr; exact absurd hr hn1
    | cons c cs =>
      have hc : c ∈ n := by
        have : c ∈ n.reverse := by rw [hr]; simp
        simpa using this
      have hne : c ≠ '/' := fun e => hn2 (e ▸ hc)
      simpa using startsWith_slash_cons c (cs ++ '/' :: dir.reverse) hne
  have hbody : ((splitOn '/' (dir ++ '/' :: n)).foldl (pushSegment true) []).reverse
      = top :: (names ++ [n]) := by
    rw [splitOn_snoc_sep '/' n hn2, List.foldl_append]
    simp only [List.foldl_cons, List.foldl_nil]
    rw [foldl_pushSegment_snoc _ n hn', List.reverse_cons, hd3]
    simp
  simp only [habs, htrail, Bool.not_false, hbody]
  have hne : joinWith '/' (top :: (names ++ [n])) ≠ [] := by
    have := joinWith_snoc_ne_nil '/' (top :: names) n hn1
    simpa using this
  simp [hne]

theorem rooted_joinWith (top : Str) (names : List Str) (htop : ValidName top)
    (hnames : ∀ x ∈ names, ValidName x) : Rooted top names (joinWith '/' (top :: names)) := by
  have hvalid : ∀ x ∈ top :: names, ValidName x := by
    intro x hx
    rcases List.mem_cons.1 hx with h | h
    · exact h ▸ htop
    · exact hnames x h
  refine ⟨joinWith_cons_ne_nil '/' top names htop.1, ?_, ?_⟩
  · obtain ⟨h1, h2, _, _⟩ := htop
    cases top with
    | nil => exact absurd rfl h1
    | cons c cs =>
      have hc : c ≠ '/' := fun e => h2 (by simp [e])
      cases names <;> simp [joinWith, startsWith, Ne.symm hc]
  · rw [splitOn_joinWith '/' (top :: names) (by simp) (fun x hx => (hvalid x hx).2.1),
      foldl_pushSegment_valid _ _ hvalid]
    simp

/-- The segments of a path built from valid names are those names. -/
theorem splitOn_path (top : Str) (names : List Str) (htop : ValidName top)
    (hnames : ∀ x ∈ names, ValidName x) :
    splitOn '/' (joinWith '/' (top :: names)) = top :: names := by
  apply splitOn_joinWith '/' (top :: names) (by simp)
  intro x hx
  rcases List.mem_cons.1 hx with h | h
  · exact h ▸ htop.2.1
  · exact (hnames x h).2.1

/-! ## Lemmas on getSolidityFiles -/

theorem withTestExtra_pathJoin (dir file : Str) (fileList : List Str) :
    withTestExtra (pathJoin dir file) fileList = fileList := by
  unfold withTestExtra
  rw [if_neg (pathJoin_ne_test dir file)]

theorem forEachEntry_file (filterFunc : Option (Str → Bool)) (dir name : Str)
    (rest : Listing) (fileList : List Str) :
    forEachEntry filterFunc dir (.file name rest) fileList
      = forEachEntry filterFunc dir rest
          (if keepsFile filterFunc name = true then fileList ++ [pathJoin dir name]
           else fileList) := by
  simp only [forEachEntry, keepsFile]
  by_cases hsol : endsWith ".sol".toList name = true
  · simp only [hsol, if_true, Bool.true_and]
    cases filterFunc with
    | none => simp
    | some f => cases hf : f name <;> simp [hf]
  · have hsol2 : endsWith ".sol".toList name = false := Bool.eq_false_iff.2 hsol
    simp only [hsol2, Bool.false_and, Bool.false_eq_true, if_false]

/-- The loop appends to `fileList` the paths of the kept file entries, in
depth-first order. -/
theorem forEachEntry_eq (filterFunc : Option (Str → Bool)) :
    ∀ (files : Listing) (dir : Str) (fileList : List Str),
      forEachEntry filterFunc dir files fileList
        = fileList ++ ((fileEntries dir files).filter
            (fun e => keepsFile filterFunc e.2)).map Prod.fst := by
  intro files
  induction files with
  | nil => intro dir fileList; simp [forEachEntry, fileEntries]
  | file name rest ih =>
    intro dir fileList
    rw [forEachEntry_file, ih]
    have hfe : fileEntries dir (.file name rest)
        = (pathJoin dir name, name) :: fileEntries dir rest := rfl
    rw [hfe, List.filter_cons]
    cases hk : keepsFile filterFunc name
    · simp
    · simp
  | dir name children rest ihc ihr =>
    intro dir fileList
    simp only [forEachEntry, fileEntries]
    rw [withTestExtra_pathJoin, ihr, ihc]
    simp

/-- Every file entry below a relative directory has a valid name and a path
made of the directory's segments, the names of the directories passed through,
and the name of the file. -/
theorem fileEntries_shape (top : Str) (htop : ValidName top) :
    ∀ (files : Listing) (dir : Str) (names : List Str),
      files.WellFormed → Rooted top names dir → (∀ x ∈ names, ValidName x) →
      ∀ e ∈ fileEntries dir files,
        ∃ names2 : List Str, (∀ x ∈ names2, ValidName x) ∧ ValidName e.2 ∧
          e.1 = joinWith '/' (top :: (names2 ++ [e.2])) := by
  intro files
  induction files with
  | nil => intro dir names _ _ _ e he; simp [fileEntries] at he
  | file name rest ih =>
    intro dir names hwf hroot hnames e he
    obtain ⟨hname, hrest⟩ := hwf
    simp only [fileEntries] at he
    rcases List.mem_cons.1 he with h | h
    · subst h
      exact ⟨names, hnames, hname, pathJoin_rooted top names dir name hroot hname⟩
    · exact ih dir names hrest hroot hnames e h
  | dir name children rest ihc ihr =>
    intro dir names hwf hroot hnames e he
    obtain ⟨hname, hchildren, hrest⟩ := hwf
    simp only [fileEntries] at he
    rcases List.mem_append.1 he with h | h
    · have hnames2 : ∀ x ∈ names ++ [name], ValidName x := by
        intro x hx
        rcases List.mem_append.1 hx with h1 | h1
        · exact hnames x h1
        · simp at h1; exact h1 ▸ hname
      apply ihc (pathJoin dir name) (names ++ [name]) hchildren _ hnames2 e h
      rw [pathJoin_rooted top names dir name hroot hname]
      exact rooted_joinWith top (names ++ [name]) htop hnames2
    · exact ihr dir names hrest hroot hnames e h

/-- The segments of the path of a file entry below a relative directory: the
first is the directory's first kept segment, the last the name of the file. -/
theorem fileEntries_segments (top : Str) (htop : ValidName top) (files : Listing)
    (dir : Str) (hwf : files.WellFormed) (hroot : Rooted top [] dir)
    (e : Str × Str) (he : e ∈ fileEntries dir files) :
    ∃ names : List Str, splitOn '/' e.1 = top :: (names ++ [e.2]) := by
  obtain ⟨names, hnames, hname, hpath⟩ :=
    fileEntries_shape top htop files dir [] hwf hroot (by simp) e he
  refine ⟨names, ?_⟩
  rw [hpath]
  apply splitOn_path top _ htop
  intro x hx
  rcases List.mem_append.1 hx with h | h
  · exact hnames x h
  · simp at h; exact h ▸ hname

/-- Two file entries below a relative directory with the same path have the
same name. -/
theorem fileEntries_name_of_path (top : Str) (htop : ValidName top) (files : Listing)
    (dir : Str) (hwf : files.WellFormed) (hroot : Rooted top [] dir)
    (e1 e2 : Str × Str) (h1 : e1 ∈ fileEntries dir files) (h2 : e2 ∈ fileEntries dir files)
    (hpath : e1.1 = e2.1) : e1.2 = e2.2 := by
  obtain ⟨n1, hs1⟩ := fileEntries_segments top htop files dir hwf hroot e1 h1
  obtain ⟨n2, hs2⟩ := fileEntries_segments top htop files dir hwf hroot e2 h2
  rw [hpath, hs2] at hs1
  have h3 : n2 ++ [e2.2] = n1 ++ [e1.2] := List.cons.inj hs1 |>.2
  have h4 := List.append_inj_right' h3 rfl
  exact (List.cons.inj h4).1.symm

theorem getSolidityFiles_of_ne_test (root : Str) (files : Listing)
    (filterFunc : Option (Str → Bool)) (hroot : root ≠ "./test".toList) :
    getSolidityFiles root files [] filterFunc
      = ((fileEntries root files).filter (fun e => keepsFile filterFunc e.2)).map Prod.fst := by
  unfold getSolidityFiles withTestExtra
  rw [if_neg hroot, forEachEntry_eq]
  simp

theorem getSolidityFiles_test (files : Listing) (filterFunc : Option (Str → Bool)) :
    getSolidityFiles "./test".toList files [] filterFunc
      = ((fileEntries "./test".toList files).filter
          (fun e => keepsFile filterFunc e.2)).map Prod.fst
        ++ ["./script/LibDeploy.sol".toList] := by
  unfold getSolidityFiles withTestExtra
  rw [if_pos rfl, forEachEntry_eq]
  simp

theorem rooted_contracts : Rooted "contracts".toList [] "./contracts".toList := by
  unfold Rooted; decide

theorem rooted_test : Rooted "test".toList [] "./test".toList := by
  unfold Rooted; decide

theorem validName_contracts : ValidName "contracts".toList := by
  unfold ValidName; decide

theorem validName_test : ValidName "test".toList := by
  unfold ValidName; decide

/-- No path found below `./contracts` is in `testFiles`. -/
theorem not_mem_testFiles (contracts test : Listing) (hc : contracts.WellFormed)
    (ht : test.WellFormed) (e : Str × Str)
    (he : e ∈ fileEntries "./contracts".toList contracts) : e.1 ∉ testFiles test := by
  obtain ⟨names, hs⟩ := fileEntries_segments _ validName_contracts contracts _ hc
    rooted_contracts e he
  intro hmem
  unfold testFiles at hmem
  rw [getSolidityFiles_test] at hmem
  rcases List.mem_append.1 hmem with h | h
  · obtain ⟨e2, he2, hpath⟩ := List.mem_map.1 h
    have he2' := (List.mem_filter.1 he2).1
    obtain ⟨names2, hs2⟩ := fileEntries_segments _ validName_test test _ ht rooted_test e2 he2'
    rw [hpath, hs] at hs2
    exact absurd (List.cons.inj hs2).1 (by decide)
  · have h2 : e.1 = "./script/LibDeploy.sol".toList := by simpa using h
    rw [h2] at hs
    have h3 : splitOn '/' "./script/LibDeploy.sol".toList
        = [".".toList, "script".toList, "LibDeploy.sol".toList] := by decide
    rw [h3] at hs
    exact absurd (List.cons.inj hs).1 (by decide)

/-! ## Lemmas on the blank-run replacement and trim -/

theorem replaceGo_skip {σ : Type} (m : Option Char → Str → Option Nat)
    (f : σ → Nat → Str → Str × σ) :
    ∀ (s : Str) (k offset : Nat) (prev : Option Char) (st : σ), k ≤ s.length →
      replaceGo m f k offset prev st s
        = replaceGo m f 0 (offset + k) (prevAfter prev (s.take k)) st (s.drop k) := by
  intro s
  induction s with
  | nil =>
    intro k offset prev st hk
    have : k = 0 := by simpa using hk
    subst this
    rfl
  | cons c cs ih =>
    intro k offset prev st hk
    cases k with
    | zero => rfl
    | succ k =>
      have hk2 : k ≤ cs.length := by simpa using hk
      rw [replaceGo, ih k (offset + 1) (some c) st hk2]
      simp only [List.take_succ_cons, List.drop_succ_cons, prevAfter]
      rw [Nat.add_assoc, Nat.add_comm 1 k]

/-- What `\s*\n` matched is a non-empty prefix of the text. -/
theorem spacesThenNewline_suffix :
    ∀ (s r : Str), spacesThenNewline s = some r →
      ∃ mid, s = mid ++ r ∧ mid ≠ [] := by
  intro s
  induction s with
  | nil => intro r h; simp [spacesThenNewline] at h
  | cons c cs ih =>
    intro r h
    unfold spacesThenNewline at h
    by_cases hsp : isSpace c = true
    · cases hrec : spacesThenNewline cs with
      | some r2 =>
        simp only [hsp, if_true, hrec] at h
        have : r2 = r := by simpa using h
        subst this
        obtain ⟨mid, hmid, _⟩ := ih r2 hrec
        exact ⟨c :: mid, by rw [hmid]; rfl, by simp⟩
      | none =>
        simp only [hsp, if_true, hrec] at h
        by_cases hc : c = '\n'
        · simp only [hc, if_true] at h
          have : cs = r := by simpa using h
          exact ⟨[c], by rw [this]; rfl, by simp⟩
        · simp [hc] at h
    · simp only [hsp, Bool.false_eq_true, if_false] at h
      by_cases hc : c = '\n'
      · subst hc; exact absurd (by decide) hsp
      · simp [hc] at h

/-- The greedy `\s*\n` stops at the last line feed of the white-space run: the
pattern does not match again on what remains. -/
theorem spacesThenNewline_maximal :
    ∀ (s r : Str), spacesThenNewline s = some r → spacesThenNewline r = none := by
  intro s
  induction s with
  | nil => intro r h; simp [spacesThenNewline] at h
  | cons c cs ih =>
    intro r h
    unfold spacesThenNewline at h
    by_cases hsp : isSpace c = true
    · cases hrec : spacesThenNewline cs with
      | some r2 =>
        simp only [hsp, if_true, hrec] at h
        have : r2 = r := by simpa using h
        subst this
        exact ih r2 hrec
      | none =>
        simp only [hsp, if_true, hrec] at h
        by_cases hc : c = '\n'
        · simp only [hc, if_true] at h
          have : cs = r := by simpa using h
          rw [← this]; exact hrec
        · simp [hc] at h
    · simp only [hsp, Bool.false_eq_true, if_false] at h
      by_cases hc : c = '\n'
      · subst hc; exact absurd (by decide) hsp
      · simp [hc] at h


theorem blankRunAt_cons (prev : Option Char) (c : Char) (cs : Str) :
    blankRunAt prev (c :: cs) = if c = '\n' then spacesThenNewline cs else none := by
  by_cases h : c = '\n'
  · subst h; rfl
  · rw [if_neg h]
    have h2 : lit "\n".toList (c :: cs) = none := by
      show (if '\n' = c then lit [] cs else none) = none
      rw [if_neg (fun e => h e.symm)]
    unfold blankRunAt
    rw [h2]; rfl

/-- One step of the blank-run replacement where the pattern does not match. -/
theorem blankReplace_cons_of_none (offset : Nat) (prev : Option Char) (c : Char) (cs : Str)
    (h : blankRunAt prev (c :: cs) = none) :
    (replaceGo (fun prev s => matchLength s (blankRunAt prev s))
        (fun (_ : Unit) _ _ => ("\n".toList, ())) 0 offset prev () (c :: cs)).1
      = c :: (replaceGo (fun prev s => matchLength s (blankRunAt prev s))
          (fun (_ : Unit) _ _ => ("\n".toList, ())) 0 (offset + 1) (some c) () cs).1 := by
  rw [replaceGo]
  simp only [h, matchLength, Option.map_none']

/-- One step of the blank-run replacement where the pattern matches: one line
feed is written and the scan resumes on what remains behind the match. -/
theorem blankReplace_cons_of_some (offset : Nat) (prev : Option Char) (c : Char) (cs r : Str)
    (h : blankRunAt prev (c :: cs) = some r) :
    ∃ offset2 prev2,
      (replaceGo (fun prev s => matchLength s (blankRunAt prev s))
          (fun (_ : Unit) _ _ => ("\n".toList, ())) 0 offset prev () (c :: cs)).1
        = '\n' :: (replaceGo (fun prev s => matchLength s (blankRunAt prev s))
            (fun (_ : Unit) _ _ => ("\n".toList, ())) 0 offset2 prev2 () r).1 := by
  have h2 := h
  rw [blankRunAt_cons] at h2
  by_cases hc : c = '\n'
  · rw [if_pos hc] at h2
    obtain ⟨mid, hmid, _⟩ := spacesThenNewline_suffix cs r h2
    have hlen : (c :: cs).length - r.length = mid.length + 1 := by
      rw [hmid]; simp; omega
    have hdrop : cs.drop mid.length = r := by rw [hmid]; simp
    refine ⟨offset + 1 + mid.length, prevAfter (some c) (cs.take mid.length), ?_⟩
    rw [replaceGo]
    simp only [h, matchLength, Option.map_some', hlen]
    rw [replaceGo_skip _ _ cs mid.length (offset + 1) (some c) () (by rw [hmid]; simp), hdrop]
    rfl
  · rw [if_neg hc] at h2; exact Option.noConfusion h2

theorem spacesThenNewline_blankReplace :
    ∀ (s : Str) (offset : Nat) (prev : Option Char), spacesThenNewline s = none →
      spacesThenNewline
        (replaceGo (fun prev s => matchLength s (blankRunAt prev s))
          (fun (_ : Unit) _ _ => ("\n".toList, ())) 0 offset prev () s).1 = none := by
  intro s
  induction s with
  | nil => intro offset prev _; rfl
  | cons c cs ih =>
    intro offset prev h
    unfold spacesThenNewline at h
    have hc : c ≠ '\n' := by
      intro e
      subst e
      cases hrec : spacesThenNewline cs <;> simp [hrec, isSpace] at h
    have hnone : blankRunAt prev (c :: cs) = none := by
      rw [blankRunAt_cons, if_neg hc]
    rw [blankReplace_cons_of_none offset prev c cs hnone]
    unfold spacesThenNewline
    by_cases hsp : isSpace c = true
    · have hrec : spacesThenNewline cs = none := by
        cases hrec : spacesThenNewline cs with
        | none => rfl
        | some r => simp [hsp, hrec] at h
      rw [if_pos hsp, ih (offset + 1) (some c) hrec, if_neg hc]; rfl
    · rw [if_neg hsp, if_neg hc]; rfl

/-- The blank-run pattern matches nowhere in the output of the blank-run
replacement. -/
theorem blankRunAt_blankReplace :
    ∀ (n : Nat) (s : Str), s.length ≤ n → ∀ (offset : Nat) (prev : Option Char)
      (pre suf : Str),
      (replaceGo (fun prev s => matchLength s (blankRunAt prev s))
          (fun (_ : Unit) _ _ => ("\n".toList, ())) 0 offset prev () s).1 = pre ++ suf →
      blankRunAt none suf = none := by
  intro n
  induction n with
  | zero =>
    intro s hs offset prev pre suf h
    have : s = [] := List.eq_nil_of_length_eq_zero (by omega)
    subst this
    have h2 : ([] : Str) = pre ++ suf := h
    have : suf = [] := by
      cases pre <;> cases suf <;> simp at h2 ⊢
    subst this; rfl
  | succ n ih =>
    intro s hs offset prev pre suf h
    cases s with
    | nil =>
      have h2 : ([] : Str) = pre ++ suf := h
      have : suf = [] := by
        cases pre <;> cases suf <;> simp at h2 ⊢
      subst this; rfl
    | cons c cs =>
      have hcs : cs.length ≤ n := by simpa using hs
      cases hm : blankRunAt prev (c :: cs) with
      | none =>
        rw [blankReplace_cons_of_none offset prev c cs hm] at h
        cases pre with
        | nil =>
          simp only [List.nil_append] at h
          rw [← h, blankRunAt_cons]
          by_cases hc : c = '\n'
          · rw [if_pos hc]
            apply spacesThenNewline_blankReplace
            rw [blankRunAt_cons, if_pos hc] at hm
            exact hm
          · rw [if_neg hc]
        | cons p pre2 =>
          simp only [List.cons_append, List.cons.injEq] at h
          exact ih cs hcs (offset + 1) (some c) pre2 suf h.2
      | some r =>
        obtain ⟨offset2, prev2, heq⟩ := blankReplace_cons_of_some offset prev c cs r hm
        rw [heq] at h
        have hm2 := hm
        rw [blankRunAt_cons] at hm2
        have hc : c = '\n' := by
          by_contra hne
          rw [if_neg hne] at hm2
          exact Option.noConfusion hm2
        rw [if_pos hc] at hm2
        obtain ⟨mid, hmid, hne⟩ := spacesThenNewline_suffix cs r hm2
        have hr : r.length ≤ n := by
          have : r.length ≤ cs.length := by rw [hmid]; simp
          omega
        cases pre with
        | nil =>
          simp only [List.nil_append] at h
          rw [← h, blankRunAt_cons, if_pos rfl]
          exact spacesThenNewline_blankReplace r offset2 prev2
            (spacesThenNewline_maximal cs r hm2)
        | cons p pre2 =>
          simp only [List.cons_append, List.cons.injEq] at h
          exact ih r hr offset2 prev2 pre2 suf h.2


theorem spacesThenNewline_isSome_of_spaces (post : Str) :
    ∀ w : Str, (∀ c ∈ w, isSpace c = true) →
      (spacesThenNewline (w ++ '\n' :: post)).isSome = true := by
  intro w
  induction w with
  | nil =>
    intro _
    show (spacesThenNewline ('\n' :: post)).isSome = true
    unfold spacesThenNewline
    cases spacesThenNewline post <;> rfl
  | cons c cs ih =>
    intro h
    have hc : isSpace c = true := h c (by simp)
    have hrec := ih (fun x hx => h x (by simp [hx]))
    show (spacesThenNewline (c :: (cs ++ '\n' :: post))).isSome = true
    unfold spacesThenNewline
    rw [if_pos hc]
    cases hs : spacesThenNewline (cs ++ '\n' :: post) with
    | none => rw [hs] at hrec; exact Bool.noConfusion hrec
    | some r => rfl

/-- Where a text holds a blank run, the blank-run pattern matches. -/
theorem blankRunAt_of_hasBlankRun (s : Str) (h : HasBlankRun s) :
    ∃ pre suf, s = pre ++ suf ∧ blankRunAt none suf ≠ none := by
  obtain ⟨pre, w, post, hs, hw⟩ := h
  refine ⟨pre, '\n' :: (w ++ '\n' :: post), hs, ?_⟩
  rw [blankRunAt_cons, if_pos rfl]
  intro hnone
  have := spacesThenNewline_isSome_of_spaces post w hw
  rw [hnone] at this
  exact Bool.noConfusion this

theorem hasBlankRun_of_infix (a t b : Str) (h : HasBlankRun t) : HasBlankRun (a ++ t ++ b) := by
  obtain ⟨pre, w, post, hs, hw⟩ := h
  exact ⟨a ++ pre, w, post ++ b, by rw [hs]; simp, hw⟩

/-- The text is its trimmed text between two runs of white space. -/
theorem trim_infix (s : Str) :
    ∃ a b, s = a ++ trim s ++ b ∧ (∀ c ∈ a, isSpace c = true) ∧ (∀ c ∈ b, isSpace c = true) := by
  refine ⟨s.takeWhile isSpace, ((s.dropWhile isSpace).reverse.takeWhile isSpace).reverse, ?_, ?_, ?_⟩
  · have h1 : s = s.takeWhile isSpace ++ s.dropWhile isSpace :=
      (List.takeWhile_append_dropWhile isSpace s).symm
    have h2 : s.dropWhile isSpace
        = ((s.dropWhile isSpace).reverse.dropWhile isSpace).reverse
          ++ ((s.dropWhile isSpace).reverse.takeWhile isSpace).reverse := by
      rw [← List.reverse_append, List.takeWhile_append_dropWhile, List.reverse_reverse]
    unfold trim trimEnd trimStart
    rw [List.append_assoc, ← h2]
    exact h1
  · intro c hc
    exact (List.mem_takeWhile_imp hc)
  · intro c hc
    exact (List.mem_takeWhile_imp (List.mem_reverse.1 hc))

theorem trimEnd_getLast (s : Str) (c : Char) (h : (trimEnd s).getLast? = some c) :
    isSpace c = false := by
  unfold trimEnd at h
  rw [List.getLast?_reverse] at h
  have := List.head?_dropWhile_not isSpace s.reverse
  rw [h] at this
  exact this

theorem trim_getLast (s : Str) (c : Char) (h : (trim s).getLast? = some c) :
    isSpace c = false := trimEnd_getLast _ c h

theorem trim_head (s : Str) (c : Char) (h : (trim s).head? = some c) :
    isSpace c = false := by
  have hpre : ∃ b, trimStart s = trim s ++ b := by
    refine ⟨((s.dropWhile isSpace).reverse.takeWhile isSpace).reverse, ?_⟩
    unfold trim trimEnd trimStart
    rw [← List.reverse_append, List.takeWhile_append_dropWhile, List.reverse_reverse]
  obtain ⟨b, hb⟩ := hpre
  have h2 : (trimStart s).head? = some c := by
    rw [hb, List.head?_append, h]; rfl
  have := List.head?_dropWhile_not isSpace s
  unfold trimStart at h2
  rw [h2] at this
  exact this

/-- The output of `cleanContent` is the trimmed output of the blank-run
replacement. -/
theorem cleanContent_eq_trim (T : Str) :
    ∃ c6, cleanContent T
      = trim (replaceAll (fun prev s => matchLength s (blankRunAt prev s)) "\n".toList c6) :=
  ⟨_, rfl⟩

theorem not_hasBlankRun_cleanContent (T : Str) : ¬ HasBlankRun (cleanContent T) := by
  obtain ⟨c6, h⟩ := cleanContent_eq_trim T
  rw [h]
  intro hrun
  obtain ⟨a, b, hab, _, _⟩ :=
    trim_infix (replaceAll (fun prev s => matchLength s (blankRunAt prev s)) "\n".toList c6)
  have h2 := hasBlankRun_of_infix a _ b hrun
  rw [← hab] at h2
  obtain ⟨pre, suf, hs, hne⟩ := blankRunAt_of_hasBlankRun _ h2
  exact hne (blankRunAt_blankReplace c6.length c6 (Nat.le_refl _) 0 none pre suf hs)

/-! ## More lemmas on getSolidityFiles -/

theorem pathJoin_ne_of_dotSlash (dir file p : Str)
    (h1 : startsWith "./".toList p = true) (h2 : p ≠ "./".toList) :
    pathJoin dir file ≠ p := by
  have key : ∀ path, pathNormalize path ≠ p := by
    intro path h
    rcases pathNormalize_dotSlash path with h3 | h3
    · exact h2 (h ▸ h3)
    · rw [h, h1] at h3; exact Bool.noConfusion h3
  unfold pathJoin
  split
  · split
    · intro h; rw [← h] at h1; revert h1; decide
    · exact key _
  · split
    · exact key _
    · exact key _

theorem fileEntries_path (files : Listing) :
    ∀ (dir : Str) (e : Str × Str), e ∈ fileEntries dir files →
      ∃ d n, e.1 = pathJoin d n := by
  induction files with
  | nil => intro dir e he; simp [fileEntries] at he
  | file name rest ih =>
    intro dir e he
    simp only [fileEntries] at he
    rcases List.mem_cons.1 he with h | h
    · exact ⟨dir, name, by rw [h]⟩
    · exact ih dir e h
  | dir name children rest ihc ihr =>
    intro dir e he
    simp only [fileEntries] at he
    rcases List.mem_append.1 he with h | h
    · exact ihc _ e h
    · exact ihr dir e h

/-! ## Lemmas on the lines of the merged buffer -/

theorem mergeLoop_eq : ∀ (files : List Str) (acc : Str) (seen : Bool),
    mergeLoop acc seen files = acc ++ bufferOf (appendedTexts seen files) := by
  intro files
  induction files with
  | nil => intro acc seen; simp [mergeLoop, appendedTexts, bufferOf]
  | cons f rest ih =>
    intro acc seen
    simp only [mergeLoop, appendedTexts, bufferOf]
    rw [ih]
    simp

theorem joinWith_splitOn (sep : Char) : ∀ s : Str, joinWith sep (splitOn sep s) = s := by
  intro s
  induction s with
  | nil => rfl
  | cons c cs ih =>
    by_cases hc : c = sep
    · rw [splitOn, if_pos hc]
      cases h : splitOn sep cs with
      | nil => exact absurd h (splitOn_ne_nil sep cs)
      | cons l ls =>
        rw [h] at ih
        simp only [joinWith, List.nil_append, ih, hc]
    · rw [splitOn, if_neg hc]
      cases h : splitOn sep cs with
      | nil => exact absurd h (splitOn_ne_nil sep cs)
      | cons l ls =>
        rw [h] at ih
        cases ls with
        | nil => simp only [joinWith] at ih ⊢; rw [ih]
        | cons l2 ls2 => simp only [joinWith, List.cons_append] at ih ⊢; rw [ih]

theorem joinWith_cons_decomp (sep : Char) (l : Str) (B : List Str) :
    ∃ post, joinWith sep (l :: B) = l ++ post ∧ (post = [] ∨ ∃ p, post = sep :: p) := by
  cases B with
  | nil => exact ⟨[], by simp [joinWith], Or.inl rfl⟩
  | cons l2 B2 => exact ⟨sep :: joinWith sep (l2 :: B2), by simp [joinWith], Or.inr ⟨_, rfl⟩⟩

theorem joinWith_append_decomp (sep : Char) (l : Str) (B : List Str) :
    ∀ A : List Str, ∃ pre post, joinWith sep (A ++ l :: B) = pre ++ l ++ post ∧
      (pre = [] ∨ ∃ q, pre = q ++ [sep]) ∧ (post = [] ∨ ∃ p, post = sep :: p) := by
  intro A
  induction A with
  | nil =>
    obtain ⟨post, h1, h2⟩ := joinWith_cons_decomp sep l B
    exact ⟨[], post, by simpa using h1, Or.inl rfl, h2⟩
  | cons a A2 ih =>
    obtain ⟨pre, post, h1, h2, h3⟩ := ih
    refine ⟨a ++ sep :: pre, post, ?_, ?_, h3⟩
    · cases hA : A2 ++ l :: B with
      | nil => simp at hA
      | cons x xs =>
        rw [hA] at h1
        simp only [List.cons_append, hA, joinWith, h1]
        simp
    · rcases h2 with h | ⟨q, h⟩
      · exact Or.inr ⟨a, by rw [h]⟩
      · exact Or.inr ⟨a ++ sep :: q, by rw [h]; simp⟩

/-- A piece of a split text sits in the text between the start or a separator
and a separator or the end. -/
theorem mem_splitOn_decomp (sep : Char) (s l : Str) (h : l ∈ splitOn sep s) :
    ∃ pre post, s = pre ++ l ++ post ∧
      (pre = [] ∨ ∃ q, pre = q ++ [sep]) ∧ (post = [] ∨ ∃ p, post = sep :: p) := by
  obtain ⟨A, B, hAB⟩ := List.append_of_mem h
  obtain ⟨pre, post, h1, h2, h3⟩ := joinWith_append_decomp sep l B A
  refine ⟨pre, post, ?_, h2, h3⟩
  rw [← h1, ← hAB, joinWith_splitOn]

/-- A non-empty text that neither starts nor ends with white space and holds no
blank run has no blank line. -/
theorem lines_not_blank (s : Str) (hne : s ≠ [])
    (hhead : ∀ c, s.head? = some c → isSpace c = false)
    (hlast : ∀ c, s.getLast? = some c → isSpace c = false)
    (hrun : ¬ HasBlankRun s) :
    ∀ l ∈ splitLines s, l.all isSpace = false := by
  intro l hl
  by_contra hblank
  have hall : ∀ c ∈ l, isSpace c = true := by
    have : l.all isSpace = true := by simpa using hblank
    exact List.all_eq_true.1 this
  obtain ⟨pre, post, hs, hpre, hpost⟩ := mem_splitOn_decomp '\n' s l hl
  have hnl : isSpace '\n' = true := by decide
  rcases hpre with hpre | ⟨q, hpre⟩
  · subst hpre
    rcases hpost with hpost | ⟨p, hpost⟩
    · subst hpost
      simp only [List.nil_append, List.append_nil] at hs
      subst hs
      cases s with
      | nil => exact hne rfl
      | cons c cs =>
        have := hhead c rfl
        rw [hall c (by simp)] at this
        exact Bool.noConfusion this
    · subst hpost
      simp only [List.nil_append] at hs
      cases l with
      | nil =>
        have := hhead '\n' (by rw [hs]; rfl)
        rw [hnl] at this; exact Bool.noConfusion this
      | cons c cs =>
        have := hhead c (by rw [hs]; rfl)
        rw [hall c (by simp)] at this
        exact Bool.noConfusion this
  · subst hpre
    rcases hpost with hpost | ⟨p, hpost⟩
    · subst hpost
      simp only [List.append_nil] at hs
      cases hl2 : l.getLast? with
      | none =>
        have hlnil : l = [] := by simpa using hl2
        have := hlast '\n' (by rw [hs, hlnil]; simp)
        rw [hnl] at this; exact Bool.noConfusion this
      | some c =>
        have hc : c ∈ l := List.mem_of_getLast?_eq_some hl2
        have := hlast c (by rw [hs, List.getLast?_append, hl2]; rfl)
        rw [hall c hc] at this
        exact Bool.noConfusion this
    · subst hpost
      exact hrun ⟨q, l, p, by rw [hs]; simp, hall⟩


theorem splitOn_append (sep : Char) (b : Str) :
    ∀ a : Str, splitOn sep (a ++ sep :: b) = splitOn sep a ++ splitOn sep b := by
  intro a
  induction a with
  | nil => simp [splitOn]
  | cons c cs ih =>
    simp only [List.cons_append]
    by_cases hc : c = sep
    · rw [splitOn, if_pos hc, ih, splitOn, if_pos hc]; rfl
    · rw [splitOn, if_neg hc, ih, splitOn, if_neg hc]
      cases h : splitOn sep cs with
      | nil => exact absurd h (splitOn_ne_nil sep cs)
      | cons l ls => simp

theorem dedupLoop_snoc_empty (L : List Str) :
    dedupLoop [] (L ++ [[]]) = dedupLoop [] L ++ [[]] := by
  rw [dedupLoop_append]
  have h : isExternalImport [] = false := by decide
  simp [dedupLoop, h]

/-! ## Lemmas on consecutive blank lines of the artifact -/

/-- Splitting a text made of two parts: the last piece of the first part and
the first piece of the second part are one piece of the whole. -/
theorem splitOn_append_general (sep : Char) (v : Str) :
    ∀ u : Str, ∃ U lu hv V, splitOn sep u = U ++ [lu] ∧ splitOn sep v = hv :: V ∧
      splitOn sep (u ++ v) = U ++ (lu ++ hv) :: V := by
  intro u
  induction u with
  | nil =>
    cases hv : splitOn sep v with
    | nil => exact absurd hv (splitOn_ne_nil sep v)
    | cons h V => exact ⟨[], [], h, V, rfl, rfl, by simp [hv]⟩
  | cons c cs ih =>
    obtain ⟨U, lu, hv, V, h1, h2, h3⟩ := ih
    by_cases hc : c = sep
    · refine ⟨[] :: U, lu, hv, V, ?_, h2, ?_⟩
      · rw [splitOn, if_pos hc, h1]; rfl
      · rw [List.cons_append, splitOn, if_pos hc, h3]; rfl
    · cases U with
      | nil =>
        refine ⟨[], c :: lu, hv, V, ?_, h2, ?_⟩
        · rw [splitOn, if_neg hc, h1]; rfl
        · rw [List.cons_append, splitOn, if_neg hc, h3]; rfl
      | cons y ys =>
        refine ⟨(c :: y) :: ys, lu, hv, V, ?_, h2, ?_⟩
        · rw [splitOn, if_neg hc, h1]; rfl
        · rw [List.cons_append, splitOn, if_neg hc, h3]; rfl

theorem splitLines_bufferOf_eq :
    ∀ chunks : List Str, splitLines (bufferOf chunks) = bufferLines chunks ++ [[]] := by
  intro chunks
  induction chunks with
  | nil => rfl
  | cons c cs ih =>
    show splitOn '\n' (c ++ '\n' :: bufferOf cs) = _
    rw [splitOn_append]
    show splitOn '\n' c ++ splitLines (bufferOf cs) = _
    rw [ih]
    simp [bufferLines, splitLines]

theorem mem_bufferLines (l : Str) :
    ∀ chunks : List Str, l ∈ bufferLines chunks ↔ ∃ c ∈ chunks, l ∈ splitLines c := by
  intro chunks
  induction chunks with
  | nil => simp [bufferLines]
  | cons c cs ih => simp [bufferLines, ih]

/-- The first line of a non-empty text that does not start with white space is
not blank. -/
theorem first_line_not_blank (s u0 : Str) (rest : List Str) (hne : s ≠ [])
    (hhead : ∀ c, s.head? = some c → isSpace c = false)
    (hs : splitLines s = u0 :: rest) : u0.all isSpace = false := by
  have hj := joinWith_splitOn '\n' s
  rw [show splitOn '\n' s = u0 :: rest from hs] at hj
  obtain ⟨post, h1, h2⟩ := joinWith_cons_decomp '\n' u0 rest
  rw [hj] at h1
  cases u0 with
  | nil =>
    rcases h2 with h2 | ⟨p, h2⟩
    · rw [h2] at h1; exact absurd h1 hne
    · rw [h2] at h1
      have := hhead '\n' (by rw [h1]; rfl)
      revert this; decide
  | cons c cs =>
    have hc := hhead c (by rw [h1]; rfl)
    simp [hc]

theorem joinWith_snoc_decomp (sep : Char) (lA : Str) :
    ∀ U : List Str, ∃ pre, joinWith sep (U ++ [lA]) = pre ++ lA ∧
      (pre = [] ∨ ∃ q, pre = q ++ [sep]) := by
  intro U
  induction U with
  | nil => exact ⟨[], by simp [joinWith], Or.inl rfl⟩
  | cons a A ih =>
    obtain ⟨pre, h1, h2⟩ := ih
    refine ⟨a ++ sep :: pre, ?_, ?_⟩
    · cases hA : A ++ [lA] with
      | nil => simp at hA
      | cons x xs =>
        rw [hA] at h1
        simp only [List.cons_append, hA, joinWith, h1]
        simp
    · rcases h2 with h | ⟨q, h⟩
      · exact Or.inr ⟨a, by rw [h]⟩
      · exact Or.inr ⟨a ++ sep :: q, by rw [h]; simp⟩

/-- The last line of a non-empty text that does not end with white space is
not blank. -/
theorem last_line_not_blank (s lA : Str) (U : List Str) (hne : s ≠ [])
    (hlast : ∀ c, s.getLast? = some c → isSpace c = false)
    (hs : splitLines s = U ++ [lA]) : lA.all isSpace = false := by
  have hj := joinWith_splitOn '\n' s
  rw [show splitOn '\n' s = U ++ [lA] from hs] at hj
  obtain ⟨pre, h1, h2⟩ := joinWith_snoc_decomp '\n' lA U
  rw [hj] at h1
  cases hl : lA.getLast? with
  | none =>
    have hnil : lA = [] := by simpa using hl
    rw [hnil, List.append_nil] at h1
    rcases h2 with h2 | ⟨q, h2⟩
    · rw [h2] at h1; exact absurd h1 hne
    · have hsp : isSpace '\n' = false := hlast '\n' (by rw [h1, h2]; simp)
      exact absurd hsp (by decide)
  | some c =>
    have hc : c ∈ lA := List.mem_of_getLast?_eq_some hl
    have hsp := hlast c (by rw [h1, List.getLast?_append, hl]; rfl)
    by_contra hcon
    have hall : lA.all isSpace = true := by simpa using hcon
    rw [List.all_eq_true] at hall
    rw [hall c hc] at hsp
    exact Bool.noConfusion hsp

/-- Two consecutive blank lines of a trimmed text `A` are two consecutive lines
of any text around it, and not the last two. -/
theorem blank_pair_of_infix (a A b : Str) (hne : A ≠ [])
    (hhead : ∀ c, A.head? = some c → isSpace c = false)
    (hlast : ∀ c, A.getLast? = some c → isSpace c = false)
    (pre : List Str) (l1 l2 : Str) (post : List Str)
    (hA : splitLines A = pre ++ l1 :: l2 :: post)
    (h1 : l1.all isSpace = true) (h2 : l2.all isSpace = true) :
    ∃ P Q, (splitLines (a ++ A ++ b)).dropLast = P ++ l1 :: l2 :: Q := by
  obtain ⟨UA, lA, hb, Vb, e1, e2, e3⟩ := splitOn_append_general '\n' b A
  obtain ⟨Ua, la, h, V, f1, f2, f3⟩ := splitOn_append_general '\n' (A ++ b) a
  have hA2 : pre ++ l1 :: l2 :: post = UA ++ [lA] := by rw [← hA]; exact e1
  have hlA : lA.all isSpace = false := last_line_not_blank A lA UA hne hlast e1
  -- the pair lies within UA
  have hpost : post ≠ [] := by
    intro hp
    subst hp
    have h3 : (pre ++ [l1]) ++ [l2] = UA ++ [lA] := by simpa using hA2
    have := List.append_inj_right' h3 rfl
    have h4 : l2 = lA := by simpa using this
    rw [h4, hlA] at h2
    exact Bool.noConfusion h2
  have hUA : UA = pre ++ l1 :: l2 :: post.dropLast := by
    have := congrArg List.dropLast hA2
    rw [List.dropLast_concat] at this
    rw [← this]
    rw [show pre ++ l1 :: l2 :: post = (pre ++ [l1, l2]) ++ post by simp,
      List.dropLast_append_of_ne_nil _ hpost]
    simp
  -- the first line of A is not blank, so pre is not empty
  cases hpre : pre with
  | nil =>
    rw [hpre] at hA
    have := first_line_not_blank A l1 (l2 :: post) hne hhead hA
    rw [this] at h1
    exact Bool.noConfusion h1
  | cons u0 pre2 =>
    rw [hpre] at hUA
    rw [e3, hUA] at f2
    simp only [List.cons_append, List.cons.injEq] at f2
    obtain ⟨_, hV⟩ := f2
    have hX : splitLines (a ++ A ++ b)
        = (Ua ++ (la ++ h) :: pre2) ++ l1 :: l2 :: (post.dropLast ++ (lA ++ hb) :: Vb) := by
      show splitOn '\n' (a ++ A ++ b) = _
      rw [List.append_assoc, f3, ← hV]
      simp
    refine ⟨Ua ++ (la ++ h) :: pre2, (post.dropLast ++ (lA ++ hb) :: Vb).dropLast, ?_⟩
    rw [hX]
    rw [show (Ua ++ (la ++ h) :: pre2) ++ l1 :: l2 :: (post.dropLast ++ (lA ++ hb) :: Vb)
        = ((Ua ++ (la ++ h) :: pre2) ++ [l1, l2]) ++ (post.dropLast ++ (lA ++ hb) :: Vb) by simp,
      List.dropLast_append_of_ne_nil _ (by simp)]
    simp

/-- A first output line of the loop: the input lines before it are external
imports that the loop dropped. -/
theorem dedupLoop_eq_cons : ∀ (L seen : List Str) (l : Str) (Q : List Str),
    dedupLoop seen L = l :: Q →
    ∃ R Q2 seen2, L = R ++ l :: Q2 ∧ (∀ r ∈ R, isExternalImport r = true) ∧
      dedupLoop seen2 Q2 = Q := by
  intro L
  induction L with
  | nil => intro seen l Q h; simp [dedupLoop] at h
  | cons x xs ih =>
    intro seen l Q h
    by_cases hx : isExternalImport x = true
    · by_cases hs : trim x ∈ seen
      · have h2 : dedupLoop seen xs = l :: Q := by
          simpa [dedupLoop, hx, hs] using h
        obtain ⟨R, Q2, seen2, e1, e2, e3⟩ := ih seen l Q h2
        refine ⟨x :: R, Q2, seen2, by rw [e1]; rfl, ?_, e3⟩
        intro r hr
        rcases List.mem_cons.1 hr with h0 | h0
        · rw [h0]; exact hx
        · exact e2 r h0
      · have h2 : x :: dedupLoop (trim x :: seen) xs = l :: Q := by
          simpa [dedupLoop, hx, hs] using h
        injection h2 with h3 h4
        exact ⟨[], xs, trim x :: seen, by rw [h3]; rfl, by simp, h4⟩
    · have hx2 : isExternalImport x = false := by simpa using hx
      have h2 : x :: dedupLoop seen xs = l :: Q := by
        simpa [dedupLoop, hx2] using h
      injection h2 with h3 h4
      exact ⟨[], xs, seen, by rw [h3]; rfl, by simp, h4⟩

/-- A suffix of the output of the loop is the output of the loop on a suffix
of the input. -/
theorem dedupLoop_eq_append : ∀ (P : List Str) (L seen : List Str) (S : List Str),
    dedupLoop seen L = P ++ S →
    ∃ L1 L2 seen2, L = L1 ++ L2 ∧ dedupLoop seen2 L2 = S := by
  intro P
  induction P with
  | nil => intro L seen S h; exact ⟨[], L, seen, rfl, h⟩
  | cons p P2 ih =>
    intro L seen S h
    obtain ⟨R, Q2, seen2, e1, _, e3⟩ := dedupLoop_eq_cons L seen p (P2 ++ S) h
    obtain ⟨L1, L2, seen3, f1, f2⟩ := ih Q2 seen2 S e3
    exact ⟨R ++ p :: L1, L2, seen3, by rw [e1, f1]; simp, f2⟩

/-- Two consecutive output lines of the loop: the input lines between them are
external imports that the loop dropped. -/
theorem dedupLoop_eq_pair (P : List Str) (L seen : List Str) (l1 l2 : Str) (Q : List Str)
    (h : dedupLoop seen L = P ++ l1 :: l2 :: Q) :
    ∃ P2 R Q2, L = P2 ++ l1 :: (R ++ l2 :: Q2) ∧ ∀ r ∈ R, isExternalImport r = true := by
  obtain ⟨L1, L2, seen2, e1, e2⟩ := dedupLoop_eq_append P L seen _ h
  obtain ⟨R1, Q1, seen3, f1, _, f3⟩ := dedupLoop_eq_cons L2 seen2 l1 _ e2
  obtain ⟨R, Q2, _, g1, g2, _⟩ := dedupLoop_eq_cons Q1 seen3 l2 _ f3
  exact ⟨L1 ++ R1, R, Q2, by rw [e1, f1, g1]; simp, g2⟩

/-- The output of `cleanContent` is empty or has no blank line. -/
theorem cleanContent_lines_not_blank (T : Str) :
    cleanContent T = [] ∨ ∀ l ∈ splitLines (cleanContent T), l.all isSpace = false := by
  by_cases h : cleanContent T = []
  · exact Or.inl h
  · refine Or.inr (lines_not_blank _ h ?_ ?_ (not_hasBlankRun_cleanContent T))
    · obtain ⟨c6, h6⟩ := cleanContent_eq_trim T
      rw [h6]; exact fun c hc => trim_head _ c hc
    · obtain ⟨c6, h6⟩ := cleanContent_eq_trim T
      rw [h6]; exact fun c hc => trim_getLast _ c hc

/-- Every appended text is empty or has no blank line. -/
theorem appendedTexts_lines_not_blank : ∀ (files : List Str) (seen : Bool),
    ∀ c ∈ appendedTexts seen files,
      c = [] ∨ ∀ l ∈ splitLines c, l.all isSpace = false := by
  intro files
  induction files with
  | nil => intro seen c hc; simp [appendedTexts] at hc
  | cons f rest ih =>
    intro seen c hc
    simp only [appendedTexts, List.mem_cons] at hc
    rcases hc with h | h
    · rw [h]; exact cleanContent_lines_not_blank _
    · exact ih _ c h

/-- A blank line among the lines of texts that are empty or without blank
line is the line of an empty text. -/
theorem bufferLines_blank_line : ∀ (chunks : List Str) (P : List Str) (l : Str) (S : List Str),
    (∀ c ∈ chunks, c = [] ∨ ∀ x ∈ splitLines c, x.all isSpace = false) →
    bufferLines chunks = P ++ l :: S → l.all isSpace = true →
    ∃ C1 rest, chunks = C1 ++ [] :: rest ∧ bufferLines C1 = P ∧ bufferLines rest = S := by
  intro chunks
  induction chunks with
  | nil => intro P l S _ h _; simp [bufferLines] at h
  | cons c cs ih =>
    intro P l S hgood h hl
    have hcs : ∀ c2 ∈ cs, c2 = [] ∨ ∀ x ∈ splitLines c2, x.all isSpace = false :=
      fun c2 hc2 => hgood c2 (by simp [hc2])
    simp only [bufferLines] at h
    rcases List.append_eq_append_iff.1 h with ⟨a2, e1, e2⟩ | ⟨c2, e1, e2⟩
    · obtain ⟨C1, rest, f1, f2, f3⟩ := ih a2 l S hcs e2 hl
      exact ⟨c :: C1, rest, by rw [f1]; rfl, by rw [e1]; simp [bufferLines, f2], f3⟩
    · cases c2 with
      | nil =>
        obtain ⟨C1, rest, f1, f2, f3⟩ := ih [] l S hcs (by simpa using e2.symm) hl
        refine ⟨c :: C1, rest, by rw [f1]; rfl, ?_, f3⟩
        simp only [bufferLines, f2]
        simpa using e1
      | cons y ys =>
        simp only [List.cons_append, List.cons.injEq] at e2
        obtain ⟨hy, hS⟩ := e2
        have hmem : l ∈ splitLines c := by rw [e1, ← hy]; simp
        have hc : c = [] := by
          rcases hgood c (by simp) with h0 | h0
          · exact h0
          · rw [h0 l hmem] at hl; exact Bool.noConfusion hl
        rw [hc] at e1
        have e3 : [([] : Str)] = P ++ y :: ys := e1
        have hP : P = [] := by
          cases P with
          | nil => rfl
          | cons p ps =>
            have := congrArg List.length e3
            simp at this
        rw [hP] at e3
        simp only [List.nil_append, List.cons.injEq] at e3
        refine ⟨[], cs, by rw [hc]; rfl, by rw [hP]; rfl, ?_⟩
        rw [hS, ← e3.2]; rfl

/-- Two consecutive blank lines of the artifact are the lines of two empty
appended texts, and the texts appended between the two hold external import
lines only. -/
theorem blank_pair_between_empty_texts (files : List Str)
    (pre : List Str) (l1 l2 : Str) (post : List Str)
    (hlines : splitLines (mergeContractsFromFiles files) = pre ++ l1 :: l2 :: post)
    (h1 : l1.all isSpace = true) (h2 : l2.all isSpace = true) :
    ∃ C1 Cmid C2, appendedTexts false files = C1 ++ [] :: (Cmid ++ [] :: C2) ∧
      ∀ c ∈ Cmid, ∀ l ∈ splitLines c, isExternalImport l = true := by
  unfold mergeContractsFromFiles at hlines
  obtain ⟨a, b, hab, _, _⟩ := trim_infix (deduplicateImports (mergeLoop [] false files))
  have hne : trim (deduplicateImports (mergeLoop [] false files)) ≠ [] := by
    intro h0
    rw [h0] at hlines
    have := congrArg List.length hlines
    simp [splitLines, splitOn] at this
    omega
  obtain ⟨P, Q, hPQ⟩ := blank_pair_of_infix a _ b hne (fun c hc => trim_head _ c hc)
    (fun c hc => trim_getLast _ c hc) pre l1 l2 post hlines h1 h2
  rw [← hab, splitLines_deduplicateImports, mergeLoop_eq, List.nil_append,
    splitLines_bufferOf_eq, dedupLoop_snoc_empty, List.dropLast_concat] at hPQ
  obtain ⟨P2, R, Q2, hL, hR⟩ := dedupLoop_eq_pair P _ [] l1 l2 Q hPQ
  have hgood := appendedTexts_lines_not_blank files false
  obtain ⟨C1, rest, e1, _, e3⟩ :=
    bufferLines_blank_line (appendedTexts false files) P2 l1 _ hgood hL h1
  have hrest : ∀ c ∈ rest, c = [] ∨ ∀ x ∈ splitLines c, x.all isSpace = false :=
    fun c hc => hgood c (by rw [e1]; simp [hc])
  obtain ⟨Cmid, C2, f1, f2, _⟩ := bufferLines_blank_line rest R l2 Q2 hrest e3 h2
  refine ⟨C1, Cmid, C2, by rw [e1, f1], ?_⟩
  intro c hc l hl
  exact hR l (by rw [← f2]; exact (mem_bufferLines l Cmid).2 ⟨c, hc, hl⟩)

/-! ## The claims -/

/-- C1, the code at a failing input.  The claim: when some file holds a
compiler-version directive, the artifact holds exactly one.  The file
`copyrightFile` holds two matches of the directive pattern, the first inside
its copyright comment; the replacement of lines 84-88 keeps that one and
deletes the real directive, then `cleanContent` deletes the comment: the
artifact is `contract A {}` and holds no directive. -/
theorem merge_copyright_comment_loses_directive :
    pragmaDirectives copyrightFile
        = ["pragma solidity ^0.8.0;".toList, "pragma solidity ^0.8.0;".toList] ∧
      mergeContractsFromFiles [copyrightFile] = "contract A {}".toList ∧
      pragmaDirectives (mergeContractsFromFiles [copyrightFile]) = [] := by
  decide

/-- C2, the code at a failing input.  The claim: the artifact holds at most one
match of the directive pattern, wherever comments are placed.  In
`markedPragmaFile` the directive only appears once `cleanContent` has deleted
the file-marker comment inside it, after the replacement of lines 84-88 has
run: merged behind `plainFile`, the artifact holds two directives. -/
theorem merge_marked_pragma_keeps_two_directives :
    mergeContractsFromFiles [plainFile, markedPragmaFile]
        = "pragma solidity ^0.8.0;\ncontract A {}\npragma solidity ^0.7.0;\ncontract B {}".toList ∧
      pragmaDirectives (mergeContractsFromFiles [plainFile, markedPragmaFile])
        = ["pragma solidity ^0.8.0;".toList, "pragma solidity ^0.7.0;".toList] := by
  decide

/-- C3, as stated, fails.  The indented line `  import "x/Ext.sol";` is an
external import line of `indentedRepeat`, and it is no line of the output,
which is the single line `import "x/Ext.sol";`: the set of line 50 holds the
trimmed lines.  Besides, an import written with a tab after `import`, or with
an alias, does not pass the tests of lines 53-59, and the output keeps both
copies of such a line. -/
theorem deduplicateImports_loses_indented_line :
    isExternalImport "  import \"x/Ext.sol\";".toList = true ∧
      "  import \"x/Ext.sol\";".toList ∈ splitLines indentedRepeat ∧
      "  import \"x/Ext.sol\";".toList ∉ splitLines (deduplicateImports indentedRepeat) ∧
      deduplicateImports indentedRepeat = "import \"x/Ext.sol\";".toList ∧
      isExternalImport "import\t\"x/Ext.sol\";".toList = false ∧
      (splitLines (deduplicateImports tabbedRepeat)).count "import\t\"x/Ext.sol\";".toList = 2 ∧
      isExternalImport "import \"x/Ext.sol\" as E;".toList = false ∧
      (splitLines (deduplicateImports aliasedRepeat)).count
          "import \"x/Ext.sol\" as E;".toList = 2 := by
  decide

/-- C3, amended.  A line is an external import for `deduplicateImports` when
it passes the tests of lines 53-59: its trimmed text starts with `import` and
a space, the pattern of line 55 matches in it, and the captured path does not
start with a dot.  For every text `T` and every such line `line`: the output
of `deduplicateImports` holds `line` at most once, and when `line` occurs in
`T`, exactly one line of the output is such an import with the same text as
`line` up to leading and trailing white space.  Nothing is said of import
lines that do not pass the tests. -/
theorem deduplicateImports_external_once (T line : Str)
    (hext : isExternalImport line = true) :
    (splitLines (deduplicateImports T)).count line ≤ 1 ∧
      (line ∈ splitLines T →
        (splitLines (deduplicateImports T)).countP
          (fun l => isExternalImport l && trim l == trim line) = 1) := by
  rw [splitLines_deduplicateImports]
  constructor
  · calc (dedupLoop [] (splitLines T)).count line
        ≤ (dedupLoop [] (splitLines T)).countP
            (fun l => isExternalImport l && trim l == trim line) := by
          rw [List.count_eq_countP]
          apply List.countP_mono_left
          intro x _ hx
          have : x = line := by simpa using hx
          subst this
          simp [hext]
      _ ≤ 1 := countP_dedupLoop_le_one _ _ _
  · intro hmem
    exact countP_dedupLoop_eq_one (trim line) (splitLines T) [] (by simp)
      ⟨line, hmem, hext, rfl⟩

/-- The amended C3 at `indentedRepeat` and its indented import line. -/
theorem deduplicateImports_external_once_witness :
    isExternalImport "  import \"x/Ext.sol\";".toList = true ∧
      (splitLines (deduplicateImports indentedRepeat)).count
          "  import \"x/Ext.sol\";".toList ≤ 1 ∧
      ("  import \"x/Ext.sol\";".toList ∈ splitLines indentedRepeat →
        (splitLines (deduplicateImports indentedRepeat)).countP
          (fun l => isExternalImport l &&
            trim l == trim "  import \"x/Ext.sol\";".toList) = 1) :=
  ⟨by decide,
    deduplicateImports_external_once indentedRepeat "  import \"x/Ext.sol\";".toList
      (by decide)⟩

/-- C4.  `deduplicateImports` is idempotent: applied to its own output it
returns that output. -/
theorem deduplicateImports_idempotent (T : Str) :
    deduplicateImports (deduplicateImports T) = deduplicateImports T := by
  have h := splitLines_deduplicateImports T
  show joinLines (dedupLoop [] (splitLines (deduplicateImports T))) = deduplicateImports T
  rw [h, dedupLoop_dedupLoop _ _ _ (fun k hk => hk)]
  rfl

/-- C5, the code at a failing input.  The claim: no line of the artifact is a
relative import statement.  In `markedImportFile` the import line carries a
file-marker comment, so neither relative-import pattern matches it, and the
later file-marker step leaves the bare relative import as a line of the
artifact.  In `singleQuoteImportFile` the import is written with single
quotes, which the patterns of `cleanContent` do not accept and the pattern of
`deduplicateImports` does: the line is kept too. -/
theorem merge_keeps_relative_import_lines :
    mergeContractsFromFiles [markedImportFile]
        = "import \"./Local.sol\";\ncontract A {}".toList ∧
      "import \"./Local.sol\";".toList ∈ splitLines (mergeContractsFromFiles [markedImportFile]) ∧
      isRelativeImportLine "import \"./Local.sol\";".toList = true ∧
      mergeContractsFromFiles [singleQuoteImportFile]
        = "import './Local.sol';\ncontract A {}".toList ∧
      importMatch "import './Local.sol';".toList = some "./Local.sol".toList := by
  decide

/-- C6.  For every text `T`, the lines of `deduplicateImports T` are a
subsequence of the lines of `T`, and every line that is not an external import
(its trimmed text does not start with `import `, or the import pattern does
not match it, or the captured path starts with a dot) occurs in the output as
many times as in `T`. -/
theorem deduplicateImports_keeps_other_lines (T : Str) :
    (splitLines (deduplicateImports T)).Sublist (splitLines T) ∧
      ∀ line : Str,
        (startsWith "import ".toList (trim line) = false ∨ importMatch line = none ∨
          ∃ path, importMatch line = some path ∧ startsWith ".".toList path = true) →
        (splitLines (deduplicateImports T)).count line = (splitLines T).count line := by
  rw [splitLines_deduplicateImports]
  refine ⟨dedupLoop_sublist _ _, ?_⟩
  intro line h
  apply count_dedupLoop_of_not_external
  unfold isExternalImport
  rcases h with h | h | ⟨path, h1, h2⟩
  · rw [h]; rfl
  · rw [h]; split <;> rfl
  · rw [h1]; split
    · simp only [h2, Bool.not_true]
    · rfl

/-- C6 at `repeatedImports` and its relative import line, which is kept both
times. -/
theorem deduplicateImports_keeps_other_lines_witness :
    (∃ path, importMatch "import \"./Local.sol\";".toList = some path ∧
        startsWith ".".toList path = true) ∧
      (splitLines (deduplicateImports repeatedImports)).Sublist (splitLines repeatedImports) ∧
      (splitLines (deduplicateImports repeatedImports)).count "import \"./Local.sol\";".toList
        = (splitLines repeatedImports).count "import \"./Local.sol\";".toList ∧
      (splitLines repeatedImports).count "import \"./Local.sol\";".toList = 2 :=
  ⟨⟨"./Local.sol".toList, by decide⟩,
    (deduplicateImports_keeps_other_lines repeatedImports).1,
    (deduplicateImports_keeps_other_lines repeatedImports).2 _
      (Or.inr (Or.inr ⟨"./Local.sol".toList, by decide⟩)),
    by decide⟩

/-- C7, as stated, fails: in `indentedRepeat` the loop pushes nothing for the
second line, `  import "x/Ext.sol";`, although no earlier line is that exact
string; the earlier line differs from it by the leading white space. -/
theorem deduplicateImports_drops_without_identical_line :
    splitLines indentedRepeat
        = ["import \"x/Ext.sol\";".toList] ++ "  import \"x/Ext.sol\";".toList :: [] ∧
      dedupLoop [] (["import \"x/Ext.sol\";".toList] ++ ["  import \"x/Ext.sol\";".toList])
        = dedupLoop [] ["import \"x/Ext.sol\";".toList] ∧
      "  import \"x/Ext.sol\";".toList ∉ ["import \"x/Ext.sol\";".toList] := by
  decide

/-- C7, amended.  Duplicates are decided by trimmed line text.  Let `line` be a
line of `T`, with the lines `pre` before it and `post` behind it, for which the
loop pushes nothing (the result after `pre` and `line` is the result after
`pre`).  Then `line` is missing from the output at that place, `line` is an
external import, and an earlier line of `T` is an external import with the
same text up to leading and trailing white space. -/
theorem deduplicateImports_drops_only_trimmed_repeats (T : Str) (pre : List Str)
    (line : Str) (post : List Str)
    (hT : splitLines T = pre ++ line :: post)
    (hdrop : dedupLoop [] (pre ++ [line]) = dedupLoop [] pre) :
    splitLines (deduplicateImports T)
        = dedupLoop [] pre ++ dedupLoop (seenAfter [] pre) post ∧
      isExternalImport line = true ∧
      ∃ earlier ∈ pre, isExternalImport earlier = true ∧ trim earlier = trim line := by
  obtain ⟨hext, hseen⟩ := dedupLoop_snoc_eq pre line hdrop
  refine ⟨?_, hext, ?_⟩
  · rw [splitLines_deduplicateImports, hT, dedupLoop_append]
    congr 1
    simp [dedupLoop, hext, hseen]
  · rcases mem_seenAfter pre [] (trim line) hseen with h | h
    · simp at h
    · exact h

/-- The amended C7 at `indentedRepeat` and its second line. -/
theorem deduplicateImports_drops_only_trimmed_repeats_witness :
    splitLines (deduplicateImports indentedRepeat)
        = dedupLoop [] ["import \"x/Ext.sol\";".toList]
            ++ dedupLoop (seenAfter [] ["import \"x/Ext.sol\";".toList]) [] ∧
      isExternalImport "  import \"x/Ext.sol\";".toList = true ∧
      ∃ earlier ∈ ["import \"x/Ext.sol\";".toList],
        isExternalImport earlier = true ∧ trim earlier = trim "  import \"x/Ext.sol\";".toList :=
  deduplicateImports_drops_only_trimmed_repeats indentedRepeat
    ["import \"x/Ext.sol\";".toList] "  import \"x/Ext.sol\";".toList [] (by decide) (by decide)

/-- C8.  Partition of the contracts root.  For all trees under `./contracts`
and `./test` whose names are names a directory listing can hold, every file
entry found below `./contracts` whose name ends with `.sol` is in exactly one
of the two job lists: in the test job's list and not in the production job's
list when its name contains `Mock`, in the production job's list and not in
the test job's list otherwise. -/
theorem mock_partition (contracts test : Listing) (hc : contracts.WellFormed)
    (ht : test.WellFormed) (path name : Str)
    (hmem : (path, name) ∈ fileEntries "./contracts".toList contracts)
    (hsol : endsWith ".sol".toList name = true) :
    (includes "Mock".toList name = true →
        path ∈ testJobFiles contracts test ∧ path ∉ productionJobFiles contracts) ∧
      (includes "Mock".toList name = false →
        path ∈ productionJobFiles contracts ∧ path ∉ testJobFiles contracts test) := by
  have hne : "./contracts".toList ≠ "./test".toList := by decide
  have hprod : ∀ p, p ∈ productionJobFiles contracts ↔
      ∃ e ∈ fileEntries "./contracts".toList contracts,
        (endsWith ".sol".toList e.2 = true ∧ includes "Mock".toList e.2 = false) ∧ e.1 = p := by
    intro p
    unfold productionJobFiles contractsFiles
    rw [getSolidityFiles_of_ne_test _ _ _ hne]
    simp [keepsFile, List.mem_map, List.mem_filter, and_assoc]
  have hmock : ∀ p, p ∈ mockFiles contracts ↔
      ∃ e ∈ fileEntries "./contracts".toList contracts,
        (endsWith ".sol".toList e.2 = true ∧ includes "Mock".toList e.2 = true) ∧ e.1 = p := by
    intro p
    unfold mockFiles
    rw [getSolidityFiles_of_ne_test _ _ _ hne]
    simp [keepsFile, List.mem_map, List.mem_filter, and_assoc]
  have hname : ∀ e ∈ fileEntries "./contracts".toList contracts, e.1 = path → e.2 = name :=
    fun e he hp => fileEntries_name_of_path _ validName_contracts contracts _ hc
      rooted_contracts e (path, name) he hmem hp
  have htest := not_mem_testFiles contracts test hc ht (path, name) hmem
  constructor
  · intro hm
    constructor
    · unfold testJobFiles
      exact List.mem_append.2 (Or.inr ((hmock path).2 ⟨(path, name), hmem, ⟨hsol, hm⟩, rfl⟩))
    · intro hp
      obtain ⟨e, he, ⟨_, hno⟩, hpath⟩ := (hprod path).1 hp
      rw [hname e he hpath, hm] at hno
      exact Bool.noConfusion hno
  · intro hm
    constructor
    · exact (hprod path).2 ⟨(path, name), hmem, ⟨hsol, hm⟩, rfl⟩
    · intro hp
      unfold testJobFiles at hp
      rcases List.mem_append.1 hp with h | h
      · exact htest h
      · obtain ⟨e, he, ⟨_, hyes⟩, hpath⟩ := (hmock path).1 h
        rw [hname e he hpath, hm] at hyes
        exact Bool.noConfusion hyes

/-- C8 at `sampleContracts` and `sampleTests`, for the mock file
`contracts/sub/BMock.sol`. -/
theorem mock_partition_witness :
    (includes "Mock".toList "BMock.sol".toList = true →
        "contracts/sub/BMock.sol".toList ∈ testJobFiles sampleContracts sampleTests ∧
          "contracts/sub/BMock.sol".toList ∉ productionJobFiles sampleContracts) ∧
      (includes "Mock".toList "BMock.sol".toList = false →
        "contracts/sub/BMock.sol".toList ∈ productionJobFiles sampleContracts ∧
          "contracts/sub/BMock.sol".toList ∉ testJobFiles sampleContracts sampleTests) :=
  mock_partition sampleContracts sampleTests
    (by simp [sampleContracts, Listing.WellFormed, ValidName])
    (by simp [sampleTests, Listing.WellFormed, ValidName])
    "contracts/sub/BMock.sol".toList "BMock.sol".toList (by decide) (by decide)

/-- C9.  Scenario 1: merging `scenarioA` and `scenarioB`, in this order, gives
the four lines `pragma solidity ^0.8.0;`, `contract A {}`,
`import "x/Ext.sol";`, `contract B {}`: one directive line, no
`import "./Local.sol";` line, one `import "x/Ext.sol";` line, and
`contract A {}` before `contract B {}`. -/
theorem scenario1_artifact :
    splitLines (mergeContractsFromFiles [scenarioA, scenarioB])
        = ["pragma solidity ^0.8.0;".toList, "contract A {}".toList,
           "import \"x/Ext.sol\";".toList, "contract B {}".toList] ∧
      (splitLines (mergeContractsFromFiles [scenarioA, scenarioB])).count
          "pragma solidity ^0.8.0;".toList = 1 ∧
      pragmaDirectives (mergeContractsFromFiles [scenarioA, scenarioB])
        = ["pragma solidity ^0.8.0;".toList] ∧
      (splitLines (mergeContractsFromFiles [scenarioA, scenarioB])).count
          "import \"./Local.sol\";".toList = 0 ∧
      (splitLines (mergeContractsFromFiles [scenarioA, scenarioB])).count
          "import \"x/Ext.sol\";".toList = 1 ∧
      (splitLines (mergeContractsFromFiles [scenarioA, scenarioB])).indexOf "contract A {}".toList
        < (splitLines (mergeContractsFromFiles [scenarioA, scenarioB])).indexOf
            "contract B {}".toList ∧
      "contract B {}".toList ∈ splitLines (mergeContractsFromFiles [scenarioA, scenarioB]) := by
  decide

/-- C10.  For every directory tree, every root other than `./test` and every
optional predicate, `getSolidityFiles(root, [], p)` returns the paths of the
non-directory entries whose name ends with `.sol` and passes the predicate
when there is one, one path per entry, in depth-first order following each
directory's listing order. -/
theorem getSolidityFiles_eq_fileEntries (root : Str) (files : Listing)
    (p : Option (Str → Bool)) (hroot : root ≠ "./test".toList) :
    getSolidityFiles root files [] p
      = ((fileEntries root files).filter
          (fun e => endsWith ".sol".toList e.2 &&
            (match p with
             | none => true
             | some f => f e.2))).map Prod.fst :=
  getSolidityFiles_of_ne_test root files p hroot

/-- C10 at `sampleContracts` under `./contracts`, without a predicate. -/
theorem getSolidityFiles_eq_fileEntries_witness :
    "./contracts".toList ≠ "./test".toList ∧
      getSolidityFiles "./contracts".toList sampleContracts [] none
        = ((fileEntries "./contracts".toList sampleContracts).filter
            (fun e => endsWith ".sol".toList e.2 &&
              (match (none : Option (Str → Bool)) with
               | none => true
               | some f => f e.2))).map Prod.fst ∧
      getSolidityFiles "./contracts".toList sampleContracts [] none
        = ["contracts/A.sol".toList, "contracts/sub/BMock.sol".toList,
           "contracts/C.sol".toList] :=
  ⟨by decide,
    getSolidityFiles_eq_fileEntries "./contracts".toList sampleContracts none (by decide),
    by decide⟩

/-- C11.  For every directory tree under `./test` and every optional predicate,
`getSolidityFiles("./test", [], p)` returns the traversal result (the kept
file entries, in depth-first order) followed by `./script/LibDeploy.sol`; that
path occurs exactly once in the result; and when no file entry has a name
ending with `.sol`, the result is that path alone. -/
theorem getSolidityFiles_test_root (files : Listing) (p : Option (Str → Bool)) :
    getSolidityFiles "./test".toList files [] p
        = ((fileEntries "./test".toList files).filter
            (fun e => endsWith ".sol".toList e.2 &&
              (match p with
               | none => true
               | some f => f e.2))).map Prod.fst
          ++ ["./script/LibDeploy.sol".toList] ∧
      (getSolidityFiles "./test".toList files [] p).count "./script/LibDeploy.sol".toList = 1 ∧
      ((∀ e ∈ fileEntries "./test".toList files, endsWith ".sol".toList e.2 = false) →
        getSolidityFiles "./test".toList files [] p = ["./script/LibDeploy.sol".toList]) := by
  have h := getSolidityFiles_test files p
  refine ⟨h, ?_, ?_⟩
  · rw [h, List.count_append]
    have h0 : List.count "./script/LibDeploy.sol".toList
        (((fileEntries "./test".toList files).filter
          (fun e => keepsFile p e.2)).map Prod.fst) = 0 := by
      rw [List.count_eq_zero]
      intro hmem
      obtain ⟨e, he, hpath⟩ := List.mem_map.1 hmem
      obtain ⟨d, n, hdn⟩ := fileEntries_path files _ e (List.mem_filter.1 he).1
      exact pathJoin_ne_of_dotSlash d n _ (by decide) (by decide) (hdn ▸ hpath)
    rw [h0]
    rfl
  · intro hno
    rw [h]
    have : (fileEntries "./test".toList files).filter (fun e => keepsFile p e.2) = [] := by
      rw [List.filter_eq_nil_iff]
      intro e he
      simp only [keepsFile, hno e he, Bool.false_and, Bool.false_eq_true, not_false_eq_true]
    rw [this]
    rfl

/-- C11 at `testsWithoutSources`, a tests tree without any `.sol` file. -/
theorem getSolidityFiles_test_root_witness :
    (∀ e ∈ fileEntries "./test".toList testsWithoutSources,
        endsWith ".sol".toList e.2 = false) ∧
      getSolidityFiles "./test".toList testsWithoutSources [] none
        = ["./script/LibDeploy.sol".toList] :=
  ⟨by decide, (getSolidityFiles_test_root testsWithoutSources none).2.2 (by decide)⟩

/-- C12, the code at a failing input.  The claim: the output of `cleanContent`
holds at most one version directive, also when the directives of the file
differ.  The pragma step (lines 40-42) keeps a match when the first occurrence
of its text is the match itself, so it deletes the repeat of an identical
directive (`samePragmaFile`) and keeps both directives of `twoPragmaFile`,
which differ. -/
theorem cleanContent_keeps_differing_directives :
    cleanContent twoPragmaFile
        = "pragma solidity ^0.8.0;\npragma solidity ^0.7.0;\ncontract A {}".toList ∧
      pragmaDirectives (cleanContent twoPragmaFile)
        = ["pragma solidity ^0.8.0;".toList, "pragma solidity ^0.7.0;".toList] ∧
      cleanContent samePragmaFile = "pragma solidity ^0.8.0;\ncontract A {}".toList := by
  decide

/-- C14.  For every text, the output of `cleanContent` does not start with a
white-space character, does not end with one, and holds no two line feeds
with only white space between them. -/
theorem cleanContent_trimmed_no_blank_run (T : Str) :
    (∀ c, (cleanContent T).head? = some c → isSpace c = false) ∧
      (∀ c, (cleanContent T).getLast? = some c → isSpace c = false) ∧
      ¬ ∃ pre w post, cleanContent T = pre ++ '\n' :: (w ++ '\n' :: post) ∧
          ∀ c ∈ w, isSpace c = true := by
  refine ⟨?_, ?_, not_hasBlankRun_cleanContent T⟩
  · obtain ⟨c6, h⟩ := cleanContent_eq_trim T
    rw [h]; exact fun c hc => trim_head _ c hc
  · obtain ⟨c6, h⟩ := cleanContent_eq_trim T
    rw [h]; exact fun c hc => trim_getLast _ c hc

/-- C14 at `scenarioA`: the output starts with `p` and ends with a closing
brace. -/
theorem cleanContent_trimmed_no_blank_run_witness :
    (cleanContent scenarioA).head? = some 'p' ∧ isSpace 'p' = false ∧
      (cleanContent scenarioA).getLast? = some '}' ∧ isSpace '}' = false :=
  ⟨by decide, (cleanContent_trimmed_no_blank_run scenarioA).1 'p' (by decide),
    by decide, (cleanContent_trimmed_no_blank_run scenarioA).2.1 '}' (by decide)⟩

/-- C13, as stated, fails: `cleanContent` of `indexFile` is empty, and with two
such files between two contracts the artifact has two consecutive empty
lines. -/
theorem merge_empty_files_leave_blank_run :
    cleanContent indexFile = [] ∧
      splitLines (mergeContractsFromFiles [contractAFile, indexFile, indexFile, contractBFile])
        = ["contract A {}".toList, [], [], "contract B {}".toList] := by
  decide

/-- C13, amended.  The text appended for a file is `cleanContent` of the file's
text after the replacement of lines 84-88.  For every ordered list of file
texts: when two consecutive lines of the artifact are blank, the appended
text is empty for two of the files, and the texts appended for the files
between those two hold external import lines only (lines that
`deduplicateImports` dropped); so the appended text is empty for at least two
files.  An artifact built from files of which at most one has an empty
appended text has no two consecutive blank lines. -/
theorem merge_blank_run_origin (files : List Str)
    (pre : List Str) (l1 l2 : Str) (post : List Str)
    (hlines : splitLines (mergeContractsFromFiles files) = pre ++ l1 :: l2 :: post)
    (h1 : l1.all isSpace = true) (h2 : l2.all isSpace = true) :
    (∃ C1 Cmid C2, appendedTexts false files = C1 ++ [] :: (Cmid ++ [] :: C2) ∧
        ∀ c ∈ Cmid, ∀ l ∈ splitLines c, isExternalImport l = true) ∧
      2 ≤ (appendedTexts false files).count [] := by
  obtain ⟨C1, Cmid, C2, e, hmid⟩ :=
    blank_pair_between_empty_texts files pre l1 l2 post hlines h1 h2
  refine ⟨⟨C1, Cmid, C2, e, hmid⟩, ?_⟩
  rw [e]
  simp only [List.count_append, List.count_cons_self]
  omega

/-- The amended C13 at `plainFile`, two files that hold the directive of
`plainFile` and nothing else, and `contractBFile`: `cleanContent` of
`pragmaOnlyFile` is not empty, the text appended for it is, and the artifact
has two consecutive empty lines. -/
theorem merge_blank_run_origin_witness :
    cleanContent pragmaOnlyFile = "pragma solidity ^0.8.0;".toList ∧
      appendedTexts false [plainFile, pragmaOnlyFile, pragmaOnlyFile, contractBFile]
        = ["pragma solidity ^0.8.0;\ncontract A {}".toList, [], [], "contract B {}".toList] ∧
      splitLines (mergeContractsFromFiles
          [plainFile, pragmaOnlyFile, pragmaOnlyFile, contractBFile])
        = ["pragma solidity ^0.8.0;".toList, "contract A {}".toList, [], [],
            "contract B {}".toList] ∧
      ((∃ C1 Cmid C2,
          appendedTexts false [plainFile, pragmaOnlyFile, pragmaOnlyFile, contractBFile]
            = C1 ++ [] :: (Cmid ++ [] :: C2) ∧
          ∀ c ∈ Cmid, ∀ l ∈ splitLines c, isExternalImport l = true) ∧
        2 ≤ (appendedTexts false
          [plainFile, pragmaOnlyFile, pragmaOnlyFile, contractBFile]).count []) :=
  ⟨by decide, by decide, by decide,
    merge_blank_run_origin [plainFile, pragmaOnlyFile, pragmaOnlyFile, contractBFile]
      ["pragma solidity ^0.8.0;".toList, "contract A {}".toList] [] []
      ["contract B {}".toList] (by decide) (by decide) (by decide)⟩

/-- C18, the code at a failing input.  The claim: the buffer is the one
obtained by applying `cleanContent` to each raw text first and the job-level
pragma replacement after.  The loop of lines 81-90 does it the other way
round.  For `copyrightFile` it builds `contract A {}` with its line feed,
without any directive, whereas the order of the claim keeps the real
directive; for `plainFile` followed by `markedPragmaFile` it builds a buffer
with two directives, whereas the order of the claim leaves one. -/
theorem merge_buffer_differs_from_normalize_first :
    mergeLoop [] false [copyrightFile] = "contract A {}\n".toList ∧
      normalizeThenReduceBuffer [] false [copyrightFile]
        = "pragma solidity ^0.8.0;\ncontract A {}\n".toList ∧
      mergeLoop [] false [copyrightFile]
        ≠ normalizeThenReduceBuffer [] false [copyrightFile] ∧
      pragmaDirectives (mergeLoop [] false [plainFile, markedPragmaFile])
        = ["pragma solidity ^0.8.0;".toList, "pragma solidity ^0.7.0;".toList] ∧
      pragmaDirectives (normalizeThenReduceBuffer [] false [plainFile, markedPragmaFile])
        = ["pragma solidity ^0.8.0;".toList] := by
  decide

end FlatAll

/-! # Properties of `src/fix-forge-broadcast.js` -/

namespace ForgeBroadcast

open FlatAll

theorem onEnd_of_parsed (parse : Str → Option Json) (raw : Str) (parsed : Json)
    (hp : parse raw = some parsed) (hnull : parsed ≠ .null) :
    onEnd parse raw =
      match getMember parsed "error".toList with
      | some err =>
        if truthy err then .error (.rpcError (getMember err "message".toList))
        else .ok (getMember parsed "result".toList)
      | none => .ok (getMember parsed "result".toList) := by
  unfold onEnd
  rw [hp]
  cases parsed with
  | null => exact absurd rfl hnull
  | bool b => rfl
  | num x => rfl
  | str s => rfl
  | arr items => rfl
  | obj members => rfl

theorem backfillLoop_append (rpc : Nat → Json → Except Rejection (Option Json)) :
    ∀ (pre rest : List Json) (i : Nat) (receipts : List (Option Json)),
      backfillLoop rpc i (pre ++ rest) receipts =
        match backfillLoop rpc i pre receipts with
        | .error e => .error e
        | .ok mid => backfillLoop rpc (i + pre.length) rest mid := by
  intro pre
  induction pre with
  | nil => intro rest i receipts; simp [backfillLoop]
  | cons tx pre ih =>
    intro rest i receipts
    have hlen : i + 1 + pre.length = i + (tx :: pre).length := by simp; omega
    rw [List.cons_append]
    simp only [backfillLoop]
    cases hstep : backfillStep rpc i tx receipts with
    | error e => simp only []
    | ok next => simp only []; rw [ih, hlen]

/-- Assigning slot `i` leaves every other slot as it was. -/
theorem getSlot_setSlot_ne (v : Option Json) :
    ∀ (receipts : List (Option Json)) (i k : Nat), k ≠ i →
      getSlot (setSlot receipts i v) k = getSlot receipts k := by
  intro receipts
  induction receipts with
  | nil =>
    intro i
    induction i with
    | zero =>
      intro k hk
      cases k with
      | zero => exact absurd rfl hk
      | succ k => simp [setSlot, getSlot]
    | succ i ihi =>
      intro k hk
      cases k with
      | zero => simp [setSlot, getSlot]
      | succ k =>
        have := ihi k (fun e => hk (by rw [e]))
        simp only [setSlot, getSlot, List.getElem?_cons_succ] at this ⊢
        exact this
  | cons r rest ih =>
    intro i k hk
    cases i with
    | zero =>
      cases k with
      | zero => exact absurd rfl hk
      | succ k => simp [setSlot, getSlot]
    | succ i =>
      cases k with
      | zero => simp [setSlot, getSlot]
      | succ k =>
        have := ih i k (fun e => hk (by rw [e]))
        simp only [setSlot, getSlot, List.getElem?_cons_succ] at this ⊢
        exact this

theorem backfillStep_of_ne_null (rpc : Nat → Json → Except Rejection (Option Json)) (i : Nat)
    (tx : Json) (receipts : List (Option Json)) (htx : tx ≠ .null) :
    backfillStep rpc i tx receipts =
      match getMember tx "hash".toList with
      | none => .ok receipts
      | some hash =>
        if !truthy hash then .ok receipts
        else if hasReceipt receipts hash then .ok receipts
        else
          match rpc i hash with
          | .error e => .error e
          | .ok receipt => .ok (setSlot receipts i receipt) := by
  cases tx with
  | null => exact absurd rfl htx
  | bool b => rfl
  | num x => rfl
  | str s => rfl
  | arr items => rfl
  | obj members => rfl

/-- One iteration changes at most the slot of its own index. -/
theorem getSlot_backfillStep (rpc : Nat → Json → Except Rejection (Option Json)) (i : Nat)
    (tx : Json) (receipts next : List (Option Json))
    (h : backfillStep rpc i tx receipts = .ok next) (k : Nat) (hk : k ≠ i) :
    getSlot next k = getSlot receipts k := by
  have htx : tx ≠ .null := by
    intro e
    subst e
    exact Except.noConfusion h
  rw [backfillStep_of_ne_null rpc i tx receipts htx] at h
  cases hh : getMember tx "hash".toList with
  | none =>
    rw [hh] at h
    simp only [Except.ok.injEq] at h
    rw [← h]
  | some hash =>
    rw [hh] at h
    simp only at h
    split at h
    · simp only [Except.ok.injEq] at h; rw [← h]
    · split at h
      · simp only [Except.ok.injEq] at h; rw [← h]
      · split at h
        · exact Except.noConfusion h
        · simp only [Except.ok.injEq] at h
          rw [← h]
          exact getSlot_setSlot_ne _ receipts i k hk

/-- The loop from index `i` on changes no slot below `i` and no slot at or
beyond the end of the transactions. -/
theorem getSlot_backfillLoop (rpc : Nat → Json → Except Rejection (Option Json)) :
    ∀ (txs : List Json) (i : Nat) (receipts out : List (Option Json)),
      backfillLoop rpc i txs receipts = .ok out →
      ∀ k, (k < i ∨ i + txs.length ≤ k) → getSlot out k = getSlot receipts k := by
  intro txs
  induction txs with
  | nil =>
    intro i receipts out h k _
    simp only [backfillLoop, Except.ok.injEq] at h
    rw [h]
  | cons tx rest ih =>
    intro i receipts out h k hk
    simp only [backfillLoop] at h
    cases hstep : backfillStep rpc i tx receipts with
    | error e => rw [hstep] at h; exact Except.noConfusion h
    | ok next =>
      rw [hstep] at h
      simp only at h
      have hki : k ≠ i := by
        rcases hk with h1 | h1
        · omega
        · simp at h1; omega
      rw [ih (i + 1) next out h k (by
        rcases hk with h1 | h1
        · left; omega
        · right; simp at h1; omega)]
      exact getSlot_backfillStep rpc i tx receipts next hstep k hki


theorem get?_of_getSlot (l : List (Option Json)) (k : Nat) (r : Json)
    (h : getSlot l k = some r) : l[k]? = some (some r) := by
  unfold getSlot at h
  cases hg : l[k]? with
  | none => rw [hg] at h; exact Option.noConfusion h
  | some v => rw [hg] at h; simp only at h; rw [h]

theorem getSlot_of_get? (l : List (Option Json)) (k : Nat) (r : Json)
    (h : l[k]? = some (some r)) : getSlot l k = some r := by
  unfold getSlot; rw [h]

/-- C15, as stated, fails: the body with a `null` error member is valid JSON
with an `error` member, and it is resolved with its result; the body `null` is
valid JSON without an `error` member, and it is rejected. -/
theorem onEnd_error_member_and_null_body :
    sampleParse "\x7b\"error\":null,\"result\":\"0x1\"\x7d".toList = some nullErrorBody ∧
      getMember nullErrorBody "error".toList = some .null ∧
      onEnd sampleParse "\x7b\"error\":null,\"result\":\"0x1\"\x7d".toList
        = .ok (some (.str "0x1".toList)) ∧
      sampleParse "null".toList = some .null ∧
      onEnd sampleParse "null".toList = .error .typeError :=
  ⟨rfl, rfl, rfl, rfl, rfl⟩

/-- C15, amended.  For every response body: a body that is not valid JSON is
rejected; the body `null` is rejected; a valid body whose `error` member is
truthy is rejected with the error built from that member's `message` (so a
message string is the message of the rejection); any other valid body,
without an `error` member or with a falsy one, is resolved with its `result`,
whatever that is. -/
theorem onEnd_classifies (parse : Str → Option Json) (raw : Str) :
    (parse raw = none → onEnd parse raw = .error .syntaxError) ∧
      (parse raw = some .null → onEnd parse raw = .error .typeError) ∧
      (∀ parsed err, parse raw = some parsed →
        getMember parsed "error".toList = some err → truthy err = true →
        onEnd parse raw = .error (.rpcError (getMember err "message".toList))) ∧
      (∀ parsed, parse raw = some parsed → parsed ≠ .null →
        truthyValue (getMember parsed "error".toList) = false →
        onEnd parse raw = .ok (getMember parsed "result".toList)) := by
  refine ⟨?_, ?_, ?_, ?_⟩
  · intro h; unfold onEnd; rw [h]
  · intro h; unfold onEnd; rw [h]
  · intro parsed err hp herr ht
    have hnull : parsed ≠ .null := by
      intro e; subst e; exact Option.noConfusion herr
    rw [onEnd_of_parsed parse raw parsed hp hnull, herr]
    simp only [ht, if_true]
  · intro parsed hp hnull hfalsy
    rw [onEnd_of_parsed parse raw parsed hp hnull]
    cases herr : getMember parsed "error".toList with
    | none => rfl
    | some err =>
      rw [herr] at hfalsy
      have : truthy err = false := hfalsy
      simp only [this, Bool.false_eq_true, if_false]

/-- The amended C15 at scenario 5: the body with the error message `not found`
is rejected with that message. -/
theorem onEnd_classifies_witness :
    sampleParse "\x7b\"error\":\x7b\"message\":\"not found\"\x7d\x7d".toList = some notFoundBody ∧
      onEnd sampleParse "\x7b\"error\":\x7b\"message\":\"not found\"\x7d\x7d".toList
        = .error (.rpcError (some (.str "not found".toList))) :=
  ⟨rfl,
    (onEnd_classifies sampleParse
      "\x7b\"error\":\x7b\"message\":\"not found\"\x7d\x7d".toList).2.2.1
      notFoundBody (.obj [("message".toList, .str "not found".toList)]) rfl rfl rfl⟩

/-- C16, as stated, fails: with an RPC that rejects the call for the first
transaction and would answer the call for the second, the run ends with the
rejection; the second receipt is not stored and nothing is written back. -/
theorem backfill_rejection_ends_run :
    backfill failFirstRpc [txWithHash "0xa".toList, txWithHash "0xb".toList] []
        = .error (.rpcError (some (.str "not found".toList))) ∧
      failFirstRpc 1 (.str "0xb".toList) = .ok (some (receiptFor "0xb".toList)) :=
  ⟨rfl, rfl⟩

/-- C16, amended.  When the loop reaches a transaction that has a hash and
lacks a matching receipt, and the RPC returns an error for it, the rejection
ends the run: whatever transactions follow, the run is rejected with that
error and no record is written back. -/
theorem backfill_stops_at_rejection (rpc : Nat → Json → Except Rejection (Option Json))
    (pre : List Json) (tx : Json) (post : List Json) (receipts mid : List (Option Json))
    (hash : Json) (e : Rejection)
    (hpre : backfillLoop rpc 0 pre receipts = .ok mid)
    (hhash : getMember tx "hash".toList = some hash) (htruthy : truthy hash = true)
    (hmiss : hasReceipt mid hash = false)
    (hrpc : rpc pre.length hash = .error e) :
    backfill rpc (pre ++ tx :: post) receipts = .error e := by
  have htx : tx ≠ .null := by
    intro h; subst h; exact Option.noConfusion hhash
  have hstep : backfillStep rpc pre.length tx mid = .error e := by
    rw [backfillStep_of_ne_null rpc pre.length tx mid htx, hhash]
    simp only [htruthy, hmiss, hrpc, Bool.not_true, Bool.false_eq_true, if_false]
  unfold backfill
  rw [backfillLoop_append, hpre]
  simp only [Nat.zero_add, backfillLoop, hstep]

/-- The amended C16 with the transaction `0xb` already served and the RPC
rejecting the first call. -/
theorem backfill_stops_at_rejection_witness :
    backfill failFirstRpc ([] ++ txWithHash "0xa".toList :: [txWithHash "0xb".toList])
        [some (receiptFor "0xb".toList)]
      = .error (.rpcError (some (.str "not found".toList))) :=
  backfill_stops_at_rejection failFirstRpc [] (txWithHash "0xa".toList)
    [txWithHash "0xb".toList] [some (receiptFor "0xb".toList)]
    [some (receiptFor "0xb".toList)] (.str "0xa".toList) _ rfl rfl rfl rfl rfl

/-- C19, as stated, fails: the receipt of transaction `0xb` sits in slot 0,
transaction `0xa` of index 0 lacks a receipt, and the RPC resolves every call
with `null`.  The fetched value overwrites slot 0, so the receipt of `0xb` is
no longer in the written record and `0xb` has no matching receipt any more. -/
theorem backfill_overwrites_receipt :
    hasReceipt [some (receiptFor "0xb".toList)] (.str "0xb".toList) = true ∧
      backfill pendingRpc [txWithHash "0xa".toList, txWithHash "0xb".toList]
        [some (receiptFor "0xb".toList)] = .ok [.null, .null] ∧
      hasReceipt [some .null, some .null] (.str "0xb".toList) = false :=
  ⟨rfl, rfl, rfl⟩

/-- C19, amended.  For every broadcast record and every RPC, when the run
completes, a receipt of the input list is still in the written record, at the
same index `k`, provided that the loop does not fetch for index `k`: there is
no transaction at index `k`, or that transaction has no hash, or a receipt
matching its hash is in the list when the loop reaches it.  A transaction
whose hash such a receipt matches still has a matching receipt. -/
theorem backfill_keeps_unfetched_slot (rpc : Nat → Json → Except Rejection (Option Json))
    (txs : List Json) (receipts : List (Option Json)) (written : List Json) (k : Nat)
    (r : Json)
    (hrun : backfill rpc txs receipts = .ok written)
    (hslot : receipts[k]? = some (some r))
    (hk : ∀ tx mid, txs[k]? = some tx →
      backfillLoop rpc 0 (txs.take k) receipts = .ok mid →
      truthyValue (getMember tx "hash".toList) = false ∨
        ∃ hash, getMember tx "hash".toList = some hash ∧ hasReceipt mid hash = true) :
    written[k]? = some r ∧
      ∀ hash, matchesHash hash (some r) = true →
        ∃ r2 ∈ written, matchesHash hash (some r2) = true := by
  have hfirst : written[k]? = some r := by
    unfold backfill at hrun
    cases hloop : backfillLoop rpc 0 txs receipts with
    | error e => rw [hloop] at hrun; exact Except.noConfusion hrun
    | ok out =>
      rw [hloop] at hrun
      simp only [Except.ok.injEq] at hrun
      have hin : getSlot receipts k = some r := getSlot_of_get? receipts k r hslot
      have hout : getSlot out k = some r := by
        rw [← hin]
        cases htx : txs[k]? with
        | none =>
          have hlen : txs.length ≤ k := by
            rw [List.getElem?_eq_none_iff] at htx; exact htx
          exact getSlot_backfillLoop rpc txs 0 receipts out hloop k (Or.inr (by omega))
        | some tx =>
          have hklt : k < txs.length := by
            by_contra hcon
            have : txs[k]? = none := List.getElem?_eq_none_iff.2 (by omega)
            rw [this] at htx; exact Option.noConfusion htx
          have hsplit : txs = txs.take k ++ tx :: txs.drop (k + 1) := by
            have h1 : txs.drop k = tx :: txs.drop (k + 1) := by
              rw [List.drop_eq_getElem_cons hklt]
              congr 1
              have := List.getElem?_eq_getElem hklt
              rw [this] at htx
              exact Option.some.inj htx
            rw [← h1, List.take_append_drop]
          have hloop2 := hloop
          rw [hsplit, backfillLoop_append] at hloop2
          cases hmidres : backfillLoop rpc 0 (txs.take k) receipts with
          | error e => rw [hmidres] at hloop2; exact Except.noConfusion hloop2
          | ok mid =>
            rw [hmidres] at hloop2
            simp only [backfillLoop] at hloop2
            have htake : (txs.take k).length = k := by
              rw [List.length_take]; omega
            rw [htake, Nat.zero_add] at hloop2
            have htxnn : tx ≠ .null := by
              intro e
              subst e
              simp only [backfillStep] at hloop2
              exact Except.noConfusion hloop2
            have hstep : backfillStep rpc k tx mid = .ok mid := by
              rw [backfillStep_of_ne_null rpc k tx mid htxnn]
              rcases hk tx mid htx hmidres with hf | ⟨hash, hh, hhas⟩
              · cases hh : getMember tx "hash".toList with
                | none => rfl
                | some hash =>
                  rw [hh] at hf
                  have : truthy hash = false := hf
                  simp only [this, Bool.not_false, if_true]
              · rw [hh]
                by_cases ht : truthy hash = true
                · simp only [ht, hhas, Bool.not_true, Bool.false_eq_true, if_false, if_true]
                · have : truthy hash = false := by simpa using ht
                  simp only [this, Bool.not_false, if_true]
            rw [hstep] at hloop2
            simp only at hloop2
            rw [getSlot_backfillLoop rpc _ (k + 1) mid out hloop2 k (Or.inl (by omega))]
            exact getSlot_backfillLoop rpc _ 0 receipts mid hmidres k
              (Or.inr (by rw [htake]; omega))
      have := get?_of_getSlot out k r hout
      rw [← hrun, List.getElem?_map, this]
      rfl
  refine ⟨hfirst, ?_⟩
  intro hash hm
  exact ⟨r, List.getElem?_mem hfirst, hm⟩

/-- The amended C19 with the receipt of `0xa` in slot 0 and the RPC resolving
every call with `null`: the receipt is kept. -/
theorem backfill_keeps_unfetched_slot_witness :
    backfill pendingRpc [txWithHash "0xa".toList] [some (receiptFor "0xa".toList)]
        = .ok [receiptFor "0xa".toList] ∧
      [receiptFor "0xa".toList][0]? = some (receiptFor "0xa".toList) :=
  ⟨rfl,
    (backfill_keeps_unfetched_slot pendingRpc [txWithHash "0xa".toList]
      [some (receiptFor "0xa".toList)] [receiptFor "0xa".toList] 0 (receiptFor "0xa".toList)
      rfl rfl
      (fun tx mid htx hmid => Or.inr ⟨.str "0xa".toList, by
        have : tx = txWithHash "0xa".toList := by
          have h0 : [txWithHash "0xa".toList][0]? = some (txWithHash "0xa".toList) := rfl
          rw [h0] at htx; exact (Option.some.inj htx).symm
        subst this; rfl, by
        have : mid = [some (receiptFor "0xa".toList)] := by
          have h0 : backfillLoop pendingRpc 0 ([txWithHash "0xa".toList].take 0)
              [some (receiptFor "0xa".toList)] = .ok [some (receiptFor "0xa".toList)] := rfl
          rw [h0] at hmid; exact (Except.ok.inj hmid).symm
        subst this; rfl⟩)).1⟩

end ForgeBroadcast

/-! # Properties of `src/lcov-parse.js` -/

namespace LcovParse

theorem toDouble_of_lt (n : Nat) (h : n < 2 ^ 53) : toDouble n = n := by
  unfold toDouble
  rw [if_pos h]

theorem log2_of_bounds (n k : Nat) (h1 : 2 ^ k ≤ n) (h2 : n < 2 ^ (k + 1)) :
    Nat.log2 n = k := by
  rw [Nat.log2_eq_log_two]
  exact Nat.log_eq_of_pow_le_of_lt_pow h1 h2

theorem toDouble_two_pow_53 : toDouble (2 ^ 53) = 2 ^ 53 := by
  unfold toDouble
  rw [log2_of_bounds (2 ^ 53) 53 (by norm_num) (by norm_num)]
  norm_num

/-- Every natural number up to `2 ^ 53` is a double. -/
theorem toDouble_of_le (n : Nat) (h : n ≤ 2 ^ 53) : toDouble n = n := by
  rcases Nat.lt_or_ge n (2 ^ 53) with h1 | h1
  · exact toDouble_of_lt n h1
  · have h2 : n = 2 ^ 53 := Nat.le_antisymm h h1
    rw [h2]
    exact toDouble_two_pow_53

theorem foldl_jsAdd (callback : CoverageRecord → Nat) :
    ∀ (arr : List CoverageRecord) (acc : Nat),
      acc + (arr.map callback).sum ≤ 2 ^ 53 →
      arr.foldl (fun result item => jsAdd result (callback item)) acc
        = acc + (arr.map callback).sum := by
  intro arr
  induction arr with
  | nil => intro acc _; simp
  | cons item rest ih =>
    intro acc h
    simp only [List.map_cons, List.sum_cons] at h
    have h1 : acc + callback item ≤ 2 ^ 53 := by omega
    simp only [List.foldl_cons, List.map_cons, List.sum_cons]
    rw [show jsAdd acc (callback item) = acc + callback item from toDouble_of_le _ h1,
      ih (acc + callback item) (by omega)]
    omega

theorem sum_eq (arr : List CoverageRecord) (callback : CoverageRecord → Nat)
    (h : (arr.map callback).sum ≤ 2 ^ 53) : sum arr callback = (arr.map callback).sum := by
  unfold sum
  rw [foldl_jsAdd callback arr 0 (by omega)]
  omega

theorem toDouble_two_pow_53_succ : toDouble (2 ^ 53 + 1) = 2 ^ 53 := by
  have hlog := log2_of_bounds (2 ^ 53 + 1) 53 (by norm_num) (by norm_num)
  have hq : (2 ^ 53 + 1) / 2 = 2 ^ 52 := by norm_num
  have hr : (2 ^ 53 + 1) % 2 = 1 := by norm_num
  have hge : ¬ (2 ^ 53 + 1 < 2 ^ 53) := by norm_num
  have hq2 : 2 ^ 52 % 2 = 0 := by norm_num
  unfold toDouble
  rw [if_neg hge]
  simp only [hlog, show 2 ^ (53 - 52) = 2 from rfl, hq, hr]
  rw [if_neg (by decide), if_neg (by decide), if_pos hq2]
  norm_num

theorem jsAdd_eq (a b : Nat) : jsAdd a b = toDouble (a + b) := rfl

theorem sum_pair (a b : CoverageRecord) (callback : CoverageRecord → Nat) :
    sum [a, b] callback = jsAdd (jsAdd 0 (callback a)) (callback b) := rfl

theorem summary_total {P : Type} (pctOf : Nat → Nat → P) (data : List CoverageRecord)
    (name : Category) :
    (summary pctOf data name).total
      = sum data (fun item => get item (lcovName name) .found) := rfl

theorem sum_pair_of (a b : CoverageRecord) (callback : CoverageRecord → Nat) (x y : Nat)
    (ha : callback a = x) (hb : callback b = y) :
    sum [a, b] callback = toDouble (toDouble x + y) := by
  rw [sum_pair, ha, hb, jsAdd_eq, jsAdd_eq, Nat.zero_add]

/-- C17, amended.  For every list of coverage records whose counts add up to
at most `2 ^ 53` in every category, each entry of the summary has as `total`
and `covered` the sums of the `found` and `hit` counts of its category over
all records, and 0 as `skipped`; the categories of `lines`, `functions` and
`branches` are their own, the category of `statements` is `branches`, and the
`statements` entry has the total, the covered count and the percentage of the
`branches` entry. -/
theorem summary_sums {P : Type} (pctOf : Nat → Nat → P) (data : List CoverageRecord)
    (h : ∀ (name : LcovName) (field : Field),
      (data.map (fun item => get item name field)).sum ≤ 2 ^ 53) :
    (∀ name : Category,
        (summary pctOf data name).total
            = (data.map (fun item => get item (lcovName name) .found)).sum ∧
          (summary pctOf data name).covered
            = (data.map (fun item => get item (lcovName name) .hit)).sum ∧
          (summary pctOf data name).skipped = 0) ∧
      lcovName .lines = .lines ∧ lcovName .functions = .functions ∧
      lcovName .branches = .branches ∧ lcovName .statements = .branches ∧
      (summary pctOf data .statements).total = (summary pctOf data .branches).total ∧
      (summary pctOf data .statements).covered = (summary pctOf data .branches).covered ∧
      (summary pctOf data .statements).pct = (summary pctOf data .branches).pct := by
  refine ⟨?_, rfl, rfl, rfl, rfl, rfl, rfl, rfl⟩
  intro name
  refine ⟨?_, ?_, rfl⟩
  · exact sum_eq data _ (h (lcovName name) .found)
  · exact sum_eq data _ (h (lcovName name) .hit)

/-- C17 at `sampleData`, with the percentage kept as the pair of its
arguments: 15 lines found and 12 hit, 6 branches found and 3 hit. -/
theorem summary_sums_witness :
    (summary (fun covered total => (covered, total)) sampleData .lines).total = 15 ∧
      (summary (fun covered total => (covered, total)) sampleData .lines).covered = 12 ∧
      (summary (fun covered total => (covered, total)) sampleData .statements).total = 6 ∧
      (summary (fun covered total => (covered, total)) sampleData .statements).pct
        = (summary (fun covered total => (covered, total)) sampleData .branches).pct :=
  have h := summary_sums (fun covered total => (covered, total)) sampleData
    (by intro name field; cases name <;> cases field <;> decide)
  ⟨(h.1 .lines).1, (h.1 .lines).2.1, (h.1 .statements).1, h.2.2.2.2.2.2.2⟩

/-- C17, as stated, fails beyond `2 ^ 53`: for two records with `2 ^ 53` lines
found and one line found, the counts add up to `2 ^ 53 + 1`, which is not a
double, and the `total` of the `lines` entry is `2 ^ 53`, the result of the
addition of line 26. -/
theorem summary_rounds_large_total :
    (largeData.map (fun item => get item (lcovName .lines) .found)).sum = 2 ^ 53 + 1 ∧
      (summary (fun covered total => (covered, total)) largeData .lines).total = 2 ^ 53 ∧
      (summary (fun covered total => (covered, total)) largeData .lines).total
        ≠ (largeData.map (fun item => get item (lcovName .lines) .found)).sum := by
  have hs : (largeData.map (fun item => get item (lcovName .lines) .found)).sum
      = 2 ^ 53 + 1 := rfl
  have h1 : (summary (fun covered total => (covered, total)) largeData .lines).total
      = toDouble (toDouble (2 ^ 53) + 1) :=
    (summary_total _ largeData .lines).trans (sum_pair_of _ _ _ (2 ^ 53) 1 rfl rfl)
  have ht : (summary (fun covered total => (covered, total)) largeData .lines).total
      = 2 ^ 53 := by
    rw [h1, toDouble_two_pow_53, toDouble_two_pow_53_succ]
  refine ⟨hs, ht, ?_⟩
  rw [ht, hs]
  omega

end LcovParse
